import Mathlib

/-!
# Swift adapter / result extension: a shallow embedding

Definitions follow `src/ext/adapter.cc` (`adapter_transaction`) and
`src/ext/result.cc` (`result_each`, `typecast_field`, `typecast_timestamp`,
`client_tzoffset`, `server_tzoffset`).

Conventions.
* A `const char *data` with its `length` is a `List Char` holding the `length`
  bytes of the span; a read at an index at or past `length` gives the byte 0
  (the terminator the C string functions used by the source rely on).
* The database driver (`dbi::Handle`, `dbi::AbstractResult`), the Ruby block,
  the process time zone and the zone database are parameters.
* C library and Ruby C API functions called by the source (`sscanf`, `atoll`,
  `pow`, `round`, `gmtime_r`, `rb_cstr2inum`, ...) are modelled by definitions
  named after them.
-/

namespace Swift

/-! ## adapter.cc : `adapter_transaction` -/

/-- Driver calls issued by `adapter_transaction`, in the order they are made;
`yield` is the `rb_protect(rb_yield, ...)` of the block. -/
inductive Call where
  | begin (name : String)
  | yield
  | commit (name : String)
  | rollback (name : String)
  deriving DecidableEq, Repr

/-- The part of `dbi::Handle` used by `adapter_transaction`.  Each call either
throws a dbi exception `ε` or leaves the connection in a new state. -/
structure Handle (σ ε : Type) where
  begin : String → σ → Except ε σ
  commit : String → σ → Except ε σ
  rollback : String → σ → Except ε σ
  /-- Value of `handle->transactions().size()`. -/
  transactions : σ → Nat

/-- How a call of `adapter_transaction` ends for the Ruby caller. -/
inductive Outcome (φ ε : Type) where
  /-- Reached `return Qtrue`. -/
  | returned
  /-- Raised `ArgumentError` ("Transaction called without a block."). -/
  | argumentError
  /-- Ran `rb_jump_tag(status)`: the block's own failure `f` continues to unwind. -/
  | jumped (f : φ)
  /-- A dbi exception thrown inside the `try`, turned into a Ruby error by
  `CATCH_DBI_EXCEPTIONS`. -/
  | raised (e : ε)
  deriving DecidableEq, Repr

/-- The savepoint name: `NIL_P(sp) ? "SP" + dbi::generateCompactUUID() : CSTRING(sp)`. -/
def save_point (uuid : String) (sp : Option String) : String :=
  match sp with
  | none => "SP" ++ uuid
  | some name => name

/-- Embedding of `adapter_transaction` (adapter.cc 161-183).

The block maps the connection state to its status and the new state; status
`none` is `status == 0` (the block completed), `some f` is a non-zero status
with pending failure `f`.  The result is the outcome together with the driver
calls made. -/
def adapter_transaction {σ ε φ : Type} (handle : Handle σ ε) (uuid : String)
    (sp : Option String) (block : Option (σ → Option φ × σ)) (s : σ) :
    Outcome φ ε × List Call :=
  match block with
  | none => (.argumentError, [])
  | some body =>
    let name := save_point uuid sp
    match handle.begin name s with
    | .error e => (.raised e, [.begin name])
    | .ok s1 =>
      match body s1 with
      | (none, s2) =>
        if handle.transactions s2 > 0 then
          match handle.commit name s2 with
          | .error e => (.raised e, [.begin name, .yield, .commit name])
          | .ok _ => (.returned, [.begin name, .yield, .commit name])
        else (.returned, [.begin name, .yield])
      | (some f, s2) =>
        if handle.transactions s2 > 0 then
          match handle.rollback name s2 with
          | .error e => (.raised e, [.begin name, .yield, .rollback name])
          | .ok _ => (.jumped f, [.begin name, .yield, .rollback name])
        else (.returned, [.begin name, .yield])

/-- Release of savepoint `name` from a stack of open savepoints: `name` and
everything opened after it are closed. -/
def release (name : String) (st : List String) : Except String (List String) :=
  if name ∈ st then .ok ((st.dropWhile (fun n => n != name)).tail)
  else .error ("no such savepoint: " ++ name)

/-- A reference connection used in the examples: its state is the stack of open
savepoints, newest first. -/
def stackHandle : Handle (List String) String where
  begin := fun name st => .ok (name :: st)
  commit := release
  rollback := release
  transactions := List.length

/-- A block that rolls its own savepoint `name` back and then raises `f`. -/
def rollbackThenRaise (name f : String) (st : List String) : Option String × List String :=
  match stackHandle.rollback name st with
  | .ok st1 => (some f, st1)
  | .error _ => (some f, st)

/-! ## result.cc : C strings and the C library -/

/-- The terminating byte of a C string. -/
def NUL : Char := Char.ofNat 0

/-- Read of `data[i]` / `*(data + i)`; at or past the end of the span the
terminator is read. -/
def byteAt (data : List Char) (i : Nat) : Char := data.getD i NUL

/-- The C string that starts at `data`: the bytes before the first 0 byte. -/
def cstring (data : List Char) : List Char := data.takeWhile (fun c => c != NUL)

/-- The test `*ptr >= '0' && *ptr <= '9'`. -/
def isdigit (c : Char) : Bool := decide ('0' ≤ c) && decide (c ≤ '9')

/-- White space of the C locale: space, `\t`, `\n`, `\v`, `\f`, `\r`. -/
def isspace (c : Char) : Bool := c == ' ' || (decide (Char.ofNat 9 ≤ c) && decide (c ≤ Char.ofNat 13))

/-- The value `*ptr - '0'`. -/
def digitVal (c : Char) : Int := (c.toNat : Int) - 48

/-- Conversion directives of the `sscanf` formats used in result.cc. -/
inductive Directive where
  /-- `%0Nd` : optionally signed decimal integer of at most `width` characters. -/
  | int (width : Nat)
  /-- An ordinary character of the format, matched literally. -/
  | lit (c : Char)
  /-- White space in the format: skips any amount of input white space. -/
  | white
  /-- `%c` : one character, white space included. -/
  | chr
  /-- `%n` : stores the number of characters consumed so far. -/
  | count
  deriving DecidableEq, Repr

/-- A value stored by one directive. -/
inductive Item where
  | int (v : Int)
  | chr (c : Char)
  | count (n : Nat)
  deriving DecidableEq, Repr

/-- Digits of a `%d` item: at most `width` of them are taken.  Gives the value
after the digits, the number of digits and the remaining input. -/
def scanDigits : Nat → List Char → Int → Int × Nat × List Char
  | 0, inp, acc => (acc, 0, inp)
  | _ + 1, [], acc => (acc, 0, [])
  | w + 1, c :: cs, acc =>
    if isdigit c then
      let r := scanDigits w cs (acc * 10 + digitVal c)
      (r.1, r.2.1 + 1, r.2.2)
    else (acc, 0, c :: cs)

/-- One `%0Nd` conversion: leading white space is skipped (it does not count
towards the width), a sign counts towards the width, and at least one digit is
required.  Gives the value, the number of characters consumed and the rest. -/
def scanInt (width : Nat) (inp : List Char) : Option (Int × Nat × List Char) :=
  let ws := (inp.takeWhile isspace).length
  let inp1 := inp.dropWhile isspace
  match inp1 with
  | [] => none
  | c :: cs =>
    if c = '-' ∨ c = '+' then
      let r := scanDigits (width - 1) cs 0
      if r.2.1 = 0 then none
      else some (if c = '-' then - r.1 else r.1, ws + 1 + r.2.1, r.2.2)
    else
      let r := scanDigits width inp1 0
      if r.2.1 = 0 then none else some (r.1, ws + r.2.1, r.2.2)

/-- Runs the directives over the input; `pos` counts the characters consumed
and `acc` holds the values stored so far.  Scanning stops at the first
directive that does not match. -/
def sscanfRun : List Directive → List Char → Nat → List Item → List Item
  | [], _, _, acc => acc
  | .int w :: ds, inp, pos, acc =>
    match scanInt w inp with
    | none => acc
    | some (v, k, rest) => sscanfRun ds rest (pos + k) (acc ++ [.int v])
  | .lit c :: ds, inp, pos, acc =>
    match inp with
    | [] => acc
    | x :: rest => if x = c then sscanfRun ds rest (pos + 1) acc else acc
  | .white :: ds, inp, pos, acc =>
    sscanfRun ds (inp.dropWhile isspace) (pos + (inp.takeWhile isspace).length) acc
  | .chr :: ds, inp, pos, acc =>
    match inp with
    | [] => acc
    | x :: rest => sscanfRun ds rest (pos + 1) (acc ++ [.chr x])
  | .count :: ds, inp, pos, acc => sscanfRun ds inp pos (acc ++ [.count pos])

/-- The values `sscanf(str, fmt, ...)` stores, in order. -/
def sscanf (str : List Char) (fmt : List Directive) : List Item :=
  sscanfRun fmt (cstring str) 0 []

/-- Return value of `sscanf`: the number of values stored, `%n` not counted.
(The source only tests it with `== 3` and `>= 2`, which the EOF value -1 fails
like 0 does.) -/
def sscanfCount (items : List Item) : Nat :=
  (items.filter (fun i => match i with | .count _ => false | _ => true)).length

/-- The integer stored for the `k`-th directive, or `dflt` when scanning
stopped before it. -/
def intItem (items : List Item) (k : Nat) (dflt : Int) : Int :=
  match items.get? k with
  | some (.int v) => v
  | _ => dflt

/-- The character stored for the `k`-th directive, or `dflt`. -/
def chrItem (items : List Item) (k : Nat) (dflt : Char) : Char :=
  match items.get? k with
  | some (.chr c) => c
  | _ => dflt

/-- The fields of `struct tm` that `mktime` reads or the source reads back. -/
structure Tm where
  tm_sec : Int
  tm_min : Int
  tm_hour : Int
  tm_mday : Int
  tm_mon : Int
  tm_year : Int
  tm_isdst : Int
  deriving DecidableEq, Repr

/-- Seconds since the epoch of the broken-down time read as UTC, with the
out-of-range normalisation of `mktime` (months carry into years; days, hours,
minutes and seconds are added linearly). -/
def timegm (tm : Tm) : Int :=
  let mon := tm.tm_mon % 12
  let year := tm.tm_year + 1900 + tm.tm_mon / 12
  let y := if mon < 2 then year - 1 else year
  let era := y / 400
  let yoe := y % 400
  let mp := if mon < 2 then mon + 10 else mon - 2
  let doy := (153 * mp + 2) / 5
  let doe := yoe * 365 + yoe / 4 - yoe / 100 + doy
  let days := era * 146097 + doe - 719468 + (tm.tm_mday - 1)
  days * 86400 + tm.tm_hour * 3600 + tm.tm_min * 60 + tm.tm_sec

/-- The C library `gmtime_r`: broken-down UTC time of an instant. -/
def gmtime_r (t : Int) : Tm :=
  let days := t / 86400
  let rem := t % 86400
  let z := days + 719468
  let era := z / 146097
  let doe := z % 146097
  let yoe := (doe - doe / 1460 + doe / 36524 - doe / 146096) / 365
  let doy := doe - (365 * yoe + yoe / 4 - yoe / 100)
  let mp := (5 * doy + 2) / 153
  let d := doy - (153 * mp + 2) / 5 + 1
  let m := if mp < 10 then mp + 3 else mp - 9
  let y := yoe + era * 400 + (if m ≤ 2 then 1 else 0)
  { tm_sec := rem % 60, tm_min := rem / 60 % 60, tm_hour := rem / 3600,
    tm_mday := d, tm_mon := m - 1, tm_year := y - 1900, tm_isdst := 0 }

/-- The time zone rules a process runs under, as seen through `mktime`: the
instant of a broken-down local time and the updated `struct tm`. -/
structure TimeZone where
  mktime : Tm → Int × Tm

/-- What `typecast_timestamp` takes from its process: the client zone (the
value of `TZ` at the call) and the zone selected by `setenv("TZ", buffer)`
followed by `tzset()`. -/
structure Env where
  client : TimeZone
  zoneOf : List Char → TimeZone

/-- The zone UTC: no offset, never daylight saving. -/
def utc : TimeZone where
  mktime := fun tm => (timegm tm, gmtime_r (timegm tm))

/-- A zone with standard offset `stdoff` (seconds east of UTC) whose daylight
saving time adds `shift` seconds at the instants where `inDst` holds.  As POSIX
prescribes, `tm_isdst > 0` makes `mktime` read the fields as daylight saving
time, `tm_isdst = 0` as standard time, and a negative value asks the zone. -/
def dstZone (stdoff shift : Int) (inDst : Int → Bool) : TimeZone where
  mktime := fun tm =>
    let f := timegm tm
    let t :=
      if tm.tm_isdst > 0 then f - stdoff - shift
      else if tm.tm_isdst = 0 then f - stdoff
      else if inDst (f - stdoff - shift) then f - stdoff - shift
      else f - stdoff
    let dst := inDst t
    (t, { gmtime_r (t + stdoff + (if dst then shift else 0)) with
          tm_isdst := if dst then 1 else 0 })

/-- Lord Howe Island in the southern summer of 2011/12: UTC+10:30, with a
half-hour daylight saving shift from 2011-10-01T15:30Z to 2012-03-31T15:00Z. -/
def lordHowe : TimeZone :=
  dstZone 37800 1800 (fun t => decide (1317483000 ≤ t) && decide (t < 1333206000))

/-- Central European time in 2012: UTC+1, one hour of daylight saving from
2012-03-25T01:00Z to 2012-10-28T01:00Z. -/
def berlin : TimeZone :=
  dstZone 3600 3600 (fun t => decide (1332637200 ≤ t) && decide (t < 1351386000))

/-! ## result.cc : the `double` arithmetic of the fraction -/

/-- Number of binary digits of `n`; `fuel` bounds the number of halvings. -/
def bitLength : Nat → Nat → Nat
  | 0, _ => 0
  | fuel + 1, n => if n = 0 then 0 else bitLength fuel (n / 2) + 1

/-- A finite non-negative IEEE-754 binary64 value `m * 2^e`. -/
structure Double where
  m : Nat
  e : Int
  deriving DecidableEq, Repr

/-- The quotient `a / b` rounded to the nearest integer, ties to even. -/
def roundQuot (a b : Nat) : Nat :=
  if b < 2 * (a % b) ∨ (2 * (a % b) = b ∧ a / b % 2 = 1) then a / b + 1 else a / b

/-- The `double` nearest to `num / den` (round to nearest, ties to even), for a
quotient in the normal range.  The quotient is scaled by a power of two into
`[2^52, 2^53)` and rounded to an integer there. -/
def Double.ofRatio (num den : Nat) : Double :=
  if num = 0 then ⟨0, 0⟩
  else
    let e0 : Int := (bitLength num num : Int) - (bitLength den den : Int) - 53
    let a := if e0 < 0 then num * 2 ^ (-e0).toNat else num
    let b := if e0 < 0 then den else den * 2 ^ e0.toNat
    if b * 2 ^ 53 ≤ a then ⟨roundQuot a (2 * b), e0 + 1⟩ else ⟨roundQuot a b, e0⟩

/-- The `double` `x` holds the integer `n` exactly. -/
def Double.Holds (x : Double) (n : Nat) : Prop :=
  x.e ≤ 0 ∧ x.m = n * 2 ^ (-x.e).toNat

/-- Conversion of an integer to `double`. -/
def Double.ofNat (n : Nat) : Double := Double.ofRatio n 1

/-- `pow(10, idx)`, taken as correctly rounded. -/
def pow10 (idx : Nat) : Double := Double.ofNat (10 ^ idx)

/-- The `double` quotient `n / d` of an integer by a `double`. -/
def Double.natDiv (n : Nat) (d : Double) : Double :=
  if d.e < 0 then Double.ofRatio (n * 2 ^ (-d.e).toNat) d.m
  else Double.ofRatio n (d.m * 2 ^ d.e.toNat)

/-- The `double` product. -/
def Double.mul (x y : Double) : Double :=
  if x.e + y.e < 0 then Double.ofRatio (x.m * y.m) (2 ^ (-(x.e + y.e)).toNat)
  else Double.ofRatio (x.m * y.m * 2 ^ (x.e + y.e).toNat) 1

/-- The C library `round` on a non-negative `double` (halves go away from
zero), converted to an integer. -/
def Double.round (x : Double) : Nat :=
  if x.e < 0 then (2 * x.m + 2 ^ (-x.e).toNat) / (2 * 2 ^ (-x.e).toNat)
  else x.m * 2 ^ x.e.toNat

/-- Value of a run of decimal digits, most significant first. -/
def decimalValue (ds : List Char) : Nat :=
  ds.foldl (fun acc c => acc * 10 + (c.toNat - 48)) 0

/-- The C library `atoll`: white space, an optional sign, then digits; a value
out of the range of `long long` is clamped to its bounds, as `strtoll` does. -/
def atoll (s : List Char) : Int :=
  let s1 := (cstring s).dropWhile isspace
  let neg := decide (s1.head? = some '-')
  let s2 := if s1.head? = some '-' ∨ s1.head? = some '+' then s1.tail else s1
  let v : Int := decimalValue (s2.takeWhile isdigit)
  if neg then max (-v) (-(2 ^ 63)) else min v (2 ^ 63 - 1)

/-! ## result.cc : `typecast_timestamp` -/

/-- The format `"%04d-%02d-%02d %02d:%02d:%02d%n"`. -/
def timestampFormat : List Directive :=
  [.int 4, .lit '-', .int 2, .lit '-', .int 2, .white,
   .int 2, .lit ':', .int 2, .lit ':', .int 2, .count]

/-- Lines 186-188: the zeroed `struct tm` with the fields `sscanf` stored, and
`lastmatch` (-1 unless `%n` was reached). -/
def scan_fields (data : List Char) : Tm × Int :=
  let items := sscanf data timestampFormat
  ({ tm_year := intItem items 0 0, tm_mon := intItem items 1 0, tm_mday := intItem items 2 0,
     tm_hour := intItem items 3 0, tm_min := intItem items 4 0, tm_sec := intItem items 5 0,
     tm_isdst := 0 },
   match items.get? 6 with
   | some (.count n) => (n : Int)
   | _ => -1)

/-- The characters copied into `subsec` by the loop of lines 195-199: the
leading digits at `data + start`, at most 31 of them. -/
def subsecDigits (data : List Char) (start : Nat) : List Char :=
  ((data.drop start).takeWhile isdigit).take 31

/-- Line 201: `round(atoll(subsec) * (1000000 / pow(10, idx)))`. -/
def subsecToUsec (subsec : List Char) : Nat :=
  Double.round (Double.mul (Double.ofNat (atoll subsec).toNat)
    (Double.natDiv 1000000 (pow10 subsec.length)))

/-- Lines 190-202: the microseconds and the advanced `lastmatch`. -/
def scan_subsec (data : List Char) (lastmatch : Int) : Nat × Int :=
  if lastmatch > 0 ∧ lastmatch < data.length ∧ byteAt data lastmatch.toNat = '.' then
    let subsec := subsecDigits data (lastmatch.toNat + 1)
    (subsecToUsec subsec, lastmatch + 1 + subsec.length)
  else (0, lastmatch)

/-- The head of the text at `ptr`, i.e. `*ptr`. -/
def peek (ptr : List Char) : Char := ptr.headD NUL

/-- Lines 213-226: `tzsign`, `tzhour` and `tzmin` after the scan for a time
zone suffix. -/
def scan_tz (data : List Char) (lastmatch : Int) : Char × Int × Int :=
  if lastmatch > 0 ∧ lastmatch < data.length then
    let p0 := (data.drop lastmatch.toNat).dropWhile
      (fun c => c != NUL && c != '+' && c != '-')
    let tzsign := peek p0
    let p1 := p0.tail
    if isdigit (peek p1) then
      let h1 := digitVal (peek p1)
      let p2 := p1.tail
      let tzhour := if isdigit (peek p2) then h1 * 10 + digitVal (peek p2) else h1
      let p3 := if isdigit (peek p2) then p2.tail else p2
      let p4 := p3.dropWhile (fun c => c != NUL && !isdigit c)
      if isdigit (peek p4) then
        let m1 := digitVal (peek p4)
        let p5 := p4.tail
        let tzmin := if isdigit (peek p5) then m1 * 10 + digitVal (peek p5) else m1
        (tzsign, tzhour, tzmin)
      else (tzsign, tzhour, 0)
    else (tzsign, 0, 0)
  else (NUL, 0, 0)

/-- The expression of lines 229-231, 239-241 and 243-245. -/
def fixed_offset (tzsign : Char) (tzhour tzmin : Int) : Int :=
  if tzsign = '+' then tzhour * 3600 + tzmin * 60
  else tzhour * (-3600) + tzmin * (-60)

/-- Calculates local offset at a given time, including dst (lines 140-145);
`tz` is the zone the process is in during the call. -/
def client_tzoffset (tz : TimeZone) (localt : Int) (isdst : Int) : Int :=
  localt + (if isdst ≠ 0 then 3600 else 0) - (tz.mktime (gmtime_r localt)).1

/-- Calculates server offset at a given time, including dst (lines 148-177):
`TZ` is set to `":" ++ zone` (cut to the 511 characters of the buffer) for the
two `mktime` calls and restored afterwards. -/
def server_tzoffset (env : Env) (tm : Tm) (zone : List Char) : Int :=
  let tz := env.zoneOf ((':' :: cstring zone).take 511)
  let r := tz.mktime { tm with tm_isdst := -1 }
  client_tzoffset tz r.1 r.2.tm_isdst

/-- The test `strncasecmp(zone, name, 3) == 0` for a three letter upper case
`name`. -/
def strncasecmp3 (zone : List Char) (name : List Char) : Bool :=
  ((cstring zone).take 3).map Char.toUpper == name

/-- Lines 233-248: the offset taken from the time zone context `zone`, when the
text has no suffix.  `tzhour` and `tzmin` are the values left by `scan_tz`. -/
def zone_offset (env : Env) (tm : Tm) (zone : List Char) (tzhour tzmin : Int) : Int :=
  if strncasecmp3 zone "UTC".toList || strncasecmp3 zone "GMT".toList then 0
  else if cstring zone = "+00:00".toList ∨ cstring zone = "+0000".toList then 0
  else
    let i1 := sscanf zone [.chr, .int 2, .int 2]
    let tzsign1 := chrItem i1 0 NUL
    let tzhour1 := intItem i1 1 tzhour
    let tzmin1 := intItem i1 2 tzmin
    if sscanfCount i1 = 3 then fixed_offset tzsign1 tzhour1 tzmin1
    else
      let i2 := sscanf zone [.chr, .int 2, .lit ':', .int 2]
      let tzsign2 := chrItem i2 0 tzsign1
      let tzhour2 := intItem i2 1 tzhour1
      let tzmin2 := intItem i2 2 tzmin1
      if sscanfCount i2 ≥ 2 then fixed_offset tzsign2 tzhour2 tzmin2
      else server_tzoffset env tm zone

/-- Encoding of a Ruby string: `rb_str_new` gives a binary string,
`rb_enc_str_new(..., rb_utf8_encoding())` a UTF-8 one. -/
inductive Encoding where
  | binary
  | utf8
  deriving DecidableEq, Repr

/-- Ruby values built by result.cc. -/
inductive Value where
  /-- `Qnil`. -/
  | nil
  /-- `Qtrue` / `Qfalse`. -/
  | bool (b : Bool)
  /-- An Integer (Fixnum or Bignum). -/
  | int (n : Int)
  /-- `StringIO.new` of the bytes. -/
  | stringio (bytes : List Char)
  /-- `rb_time_new(sec, usec)`. -/
  | time (sec : Int) (usec : Nat)
  /-- `to_date` of the Time `rb_time_new(sec, usec)`. -/
  | date (sec : Int) (usec : Nat)
  /-- `BigDecimal.new` of the text. -/
  | bigdecimal (text : List Char)
  /-- `rb_float_new(atof(text))`. -/
  | float (text : List Char)
  /-- A String with the given bytes. -/
  | string (enc : Encoding) (bytes : List Char)
  deriving DecidableEq, Repr

/-- Embedding of `typecast_timestamp` (lines 179-255); `zone` is `none` for a
null pointer.  The warning printed before the fallback is not modelled. -/
def typecast_timestamp (env : Env) (data : List Char) (zone : Option (List Char)) : Value :=
  let f := scan_fields data
  let s := scan_subsec data f.2
  let usec := s.1
  let lastmatch := s.2
  let tm0 : Tm := { f.1 with tm_year := f.1.tm_year - 1900, tm_mon := f.1.tm_mon - 1,
                             tm_isdst := -1 }
  if tm0.tm_mday > 0 then
    let r := env.client.mktime tm0
    let epoch := r.1
    let tm := r.2
    let adjust := client_tzoffset env.client epoch tm.tm_isdst
    let z := scan_tz data lastmatch
    let offset :=
      if z.1 ≠ NUL then fixed_offset z.1 z.2.1 z.2.2
      else
        match zone with
        | some zn => zone_offset env tm zn z.2.1 z.2.2
        | none => adjust
    .time (epoch + adjust - offset) usec
  else .string .binary data

/-! ## result.cc : `typecast_field` -/

/-- The zero squeezing loop of `rb_cstr_to_inum`, entered after a leading `0`:
`while ((c = *++str) == '0' || c == '_')`, leaving at the second consecutive
underscore.  `prev` is the character before `str`; the result is that
character and the text at `str` when the loop is left. -/
def squeezeZeros : List Char → Char → Nat → Char × List Char
  | [], prev, _ => (prev, [])
  | c :: rest, prev, us =>
    if c = '0' then squeezeZeros rest c 0
    else if c = '_' then
      if us + 1 ≥ 2 then (prev, c :: rest) else squeezeZeros rest c (us + 1)
    else (prev, c :: rest)

/-- The digit loop of `rb_cstr_to_inum` in base 10 without `badcheck`: digits
accumulate, one underscore between digits is passed over, and anything else
(or a second underscore in a row) ends the number. -/
def inumDigits : List Char → Bool → Nat → Nat
  | [], _, acc => acc
  | c :: rest, nondigit, acc =>
    if c = '_' then (if nondigit then acc else inumDigits rest true acc)
    else if isdigit c then inumDigits rest false (acc * 10 + (c.toNat - 48))
    else acc

/-- The base 10 marker of `rb_cstr_to_inum`: a leading `0d` or `0D` is passed
over (`if (str[0] == '0') { if (str[1] == 'd'||str[1] == 'D') str += 2; }`). -/
def radixMark (s : List Char) : List Char :=
  match s with
  | '0' :: 'd' :: r => r
  | '0' :: 'D' :: r => r
  | _ => s

/-- The block `if (*str == '0') { ... }` of `rb_cstr_to_inum` that squeezes
preceding zeros; when the loop ends at the end of the text or at white space,
`str` steps back one character (`--str`). -/
def leadingZeros (s : List Char) : List Char :=
  match s with
  | '0' :: r =>
    let q := squeezeZeros r '0' 0
    if q.2 = [] ∨ isspace (peek q.2) then q.1 :: q.2 else q.2
  | _ => s

/-- The end of `rb_cstr_to_inum`: 0 unless a digit comes first, else the
digits with their sign. -/
def inumValue (s : List Char) (neg : Bool) : Int :=
  if isdigit (peek s) then
    let v : Int := inumDigits s false 0
    if neg then -v else v
  else 0

/-- The Ruby C API call `rb_cstr2inum(str, 10)`, which is
`rb_cstr_to_inum(str, 10, 0)`: the lenient parse also used by `String#to_i`.
White space and a sign are skipped, a `0d` marker is accepted, leading zeros
are squeezed, and the number ends at the first character that cannot continue
it; without digits the result is 0.  No error is raised. -/
def rb_cstr2inum (data : List Char) : Int :=
  let s0 := (cstring data).dropWhile isspace
  let neg := decide (s0.head? = some '-')
  let s1 := if s0.head? = some '+' ∨ s0.head? = some '-' then s0.tail else s0
  if s1.head? = some '+' ∨ s1.head? = some '-' then 0
  else inumValue (leadingZeros (radixMark s1)) neg

/-- The type tags `typecast_field` switches on (`DBI_TYPE_*`); `text` stands
for `DBI_TYPE_TEXT` and every other value that reaches `default`. -/
inductive TypeTag where
  | boolean
  | int
  | blob
  | timestamp
  | date
  | numeric
  | float
  | time
  | text
  deriving DecidableEq, Repr

/-- A failure that ends `result_each`. -/
inductive Failure (ε : Type) where
  /-- `to_date` sent to the String that `typecast_timestamp` fell back to. -/
  | noMethodError
  /-- An index past the end of `fields` or `result_types`. -/
  | outOfBounds
  /-- The projection `scheme.load(tuple)` raised `e`. -/
  | load (e : ε)
  deriving DecidableEq, Repr

/-- Embedding of `typecast_field` (lines 266-288) for a non-null `data`. -/
def typecast_field {ε : Type} (env : Env) (type : TypeTag) (data : List Char)
    (timezone : Option (List Char)) : Except (Failure ε) Value :=
  match type with
  | .boolean => .ok (.bool (decide (byteAt data 0 = 't') || decide (byteAt data 0 = '1')))
  | .int => .ok (.int (rb_cstr2inum data))
  | .blob => .ok (.stringio data)
  | .timestamp => .ok (typecast_timestamp env data timezone)
  | .date =>
    match typecast_timestamp env data timezone with
    | .time sec usec => .ok (.date sec usec)
    | _ => .error .noMethodError
  | .numeric => .ok (.bigdecimal (cstring data))
  | .float => .ok (.float (cstring data))
  | _ => .ok (.string .utf8 data)

/-! ## result.cc : `result_each` -/

/-- The part of `dbi::AbstractResult` used by `result_each`. -/
structure ResultCursor where
  rows : Nat
  columns : Nat
  fields : List String
  types : List TypeTag
  /-- Value of `result->read(row, column, &length)`: `none` for a null pointer. -/
  read : Nat → Nat → Option (List Char)

/-- A Ruby Hash with Symbol keys, in insertion order. -/
abbrev Record := List (String × Value)

/-- The call `rb_hash_aset(tuple, key, value)`: the value of an existing key is
replaced in place, a new key is appended. -/
def rb_hash_aset : Record → String → Value → Record
  | [], key, value => [(key, value)]
  | (k, v) :: rest, key, value =>
    if k = key then (k, value) :: rest else (k, v) :: rb_hash_aset rest key value

/-- One pass of the column loop body (lines 79-89) for `column`. -/
def set_column {ε : Type} (env : Env) (result : ResultCursor) (timezone : Option (List Char))
    (row : Nat) (tuple : Record) (column : Nat) : Except (Failure ε) Record :=
  match result.fields.get? column with
  | none => .error .outOfBounds
  | some field =>
    match result.read row column with
    | none => .ok (rb_hash_aset tuple field .nil)
    | some data =>
      match result.types.get? column with
      | none => .error .outOfBounds
      | some type =>
        match typecast_field env type data timezone with
        | .error e => .error e
        | .ok value => .ok (rb_hash_aset tuple field value)

/-- The column loop (lines 77-90): the tuple built for `row`. -/
def row_tuple {ε : Type} (env : Env) (result : ResultCursor) (timezone : Option (List Char))
    (row : Nat) : Except (Failure ε) Record :=
  (List.range result.columns).foldlM (set_column env result timezone row) []

/-- Line 91: the value handed to `rb_yield`, the tuple itself or
`scheme.load(tuple)`. -/
def yielded {ε γ : Type} (scheme : Option (Record → Except ε γ)) (tuple : Record) :
    Except (Failure ε) (Record ⊕ γ) :=
  match scheme with
  | none => .ok (.inl tuple)
  | some load =>
    match load tuple with
    | .error e => .error (.load e)
    | .ok obj => .ok (.inr obj)

/-- The row loop (lines 76-92) over the rows still to visit: the values handed
to `rb_yield`, in order, and the failure that ended the loop, if any. -/
def each_rows {ε γ : Type} (env : Env) (result : ResultCursor)
    (timezone : Option (List Char)) (scheme : Option (Record → Except ε γ)) :
    List Nat → List (Record ⊕ γ) × Option (Failure ε)
  | [] => ([], none)
  | row :: rest =>
    match row_tuple env result timezone row with
    | .error e => ([], some e)
    | .ok tuple =>
      match yielded scheme tuple with
      | .error e => ([], some e)
      | .ok value =>
        let r := each_rows env result timezone scheme rest
        (value :: r.1, r.2)

/-- Embedding of `result_each` (lines 58-97): the values yielded, row by row,
and the failure that ended the pass (`none` when `Qnil` is returned).  `rows`
and `columns` of the cursor are the counts the `uint32_t` loop counters are
compared with. -/
def result_each {ε γ : Type} (env : Env) (result : ResultCursor)
    (timezone : Option (List Char)) (scheme : Option (Record → Except ε γ)) :
    List (Record ⊕ γ) × Option (Failure ε) :=
  each_rows env result timezone scheme (List.range result.rows)

/-- A cursor of one row and two columns that are both named `a`, as produced
by `select 1 as a, 2 as a`. -/
def twinCursor : ResultCursor where
  rows := 1
  columns := 2
  fields := ["a", "a"]
  types := [.int, .int]
  read := fun _ column => some (if column = 0 then "1".toList else "2".toList)

/-- A cursor of two rows and two columns `id`, `ok`. -/
def sampleCursor : ResultCursor where
  rows := 2
  columns := 2
  fields := ["id", "ok"]
  types := [.int, .boolean]
  read := fun row column =>
    if column = 0 then some (if row = 0 then "7".toList else "8".toList)
    else if row = 0 then some "t".toList else none

/-! ## Timestamp texts used in the statements on the suffix -/

/-- The fourteen digit characters of a text `YYYY-MM-DD HH:MM:SS`. -/
structure Stamp where
  y1 : Char
  y2 : Char
  y3 : Char
  y4 : Char
  o1 : Char
  o2 : Char
  d1 : Char
  d2 : Char
  h1 : Char
  h2 : Char
  i1 : Char
  i2 : Char
  e1 : Char
  e2 : Char

/-- The digit characters of a stamp, in order. -/
def Stamp.digits (p : Stamp) : List Char :=
  [p.y1, p.y2, p.y3, p.y4, p.o1, p.o2, p.d1, p.d2, p.h1, p.h2, p.i1, p.i2, p.e1, p.e2]

/-- The 19 characters `YYYY-MM-DD HH:MM:SS` of a stamp. -/
def Stamp.text (p : Stamp) : List Char :=
  [p.y1, p.y2, p.y3, p.y4, '-', p.o1, p.o2, '-', p.d1, p.d2, ' ',
   p.h1, p.h2, ':', p.i1, p.i2, ':', p.e1, p.e2]

/-- The stamp of `2012-06-15 14:30:00`. -/
def stamp2012 : Stamp :=
  ⟨'2', '0', '1', '2', '0', '6', '1', '5', '1', '4', '3', '0', '0', '0'⟩

/-! ## Theorems : `adapter_transaction` -/

/-- The driver calls of a scoped transaction, in closed form. -/
theorem adapter_transaction_calls {σ ε φ : Type} (handle : Handle σ ε) (uuid : String)
    (sp : Option String) (body : σ → Option φ × σ) (s : σ) :
    (adapter_transaction handle uuid sp (some body) s).2 =
      match handle.begin (save_point uuid sp) s with
      | .error _ => [.begin (save_point uuid sp)]
      | .ok s1 => .begin (save_point uuid sp) :: .yield ::
          (if 0 < handle.transactions (body s1).2 then
            [if (body s1).1.isNone then .commit (save_point uuid sp)
              else .rollback (save_point uuid sp)]
          else []) := by
  unfold adapter_transaction
  simp only
  cases handle.begin (save_point uuid sp) s with
  | error e => rfl
  | ok s1 =>
    rcases hb : body s1 with ⟨_ | f, s2⟩
    · by_cases hn : 0 < handle.transactions s2
      · cases hc : handle.commit (save_point uuid sp) s2 <;> simp [hb, hn, hc]
      · simp [hb, hn]
    · by_cases hn : 0 < handle.transactions s2
      · cases hc : handle.rollback (save_point uuid sp) s2 <;> simp [hb, hn, hc]
      · simp [hb, hn]

/-- C2: a scoped transaction calls `begin(name)` exactly once and first, the
block runs right after it, and with `n` the nesting counter after the block:
exactly one `commit(name)` and no rollback when the block completed and
`n > 0`, exactly one `rollback(name)` and no commit when the block raised and
`n > 0`, neither when `n = 0`.  The name is the caller's savepoint name when
one was supplied, and every call carries that same name. -/
theorem adapter_transaction_sequence {σ ε φ : Type} (handle : Handle σ ε) (uuid : String)
    (sp : Option String) (body : σ → Option φ × σ) (s : σ) :
    (∀ n, sp = some n → save_point uuid sp = n) ∧
    (adapter_transaction handle uuid sp (some body) s).2.head? =
      some (.begin (save_point uuid sp)) ∧
    (adapter_transaction handle uuid sp (some body) s).2.count
      (.begin (save_point uuid sp)) = 1 ∧
    (∀ c ∈ (adapter_transaction handle uuid sp (some body) s).2,
      c = .begin (save_point uuid sp) ∨ c = .yield ∨
      c = .commit (save_point uuid sp) ∨ c = .rollback (save_point uuid sp)) ∧
    (∀ s1, handle.begin (save_point uuid sp) s = .ok s1 →
      (adapter_transaction handle uuid sp (some body) s).2.take 2 =
        [.begin (save_point uuid sp), .yield] ∧
      ((body s1).1 = none → 0 < handle.transactions (body s1).2 →
        (adapter_transaction handle uuid sp (some body) s).2.count
          (.commit (save_point uuid sp)) = 1 ∧
        ∀ m, Call.rollback m ∉ (adapter_transaction handle uuid sp (some body) s).2) ∧
      ((body s1).1 ≠ none → 0 < handle.transactions (body s1).2 →
        (adapter_transaction handle uuid sp (some body) s).2.count
          (.rollback (save_point uuid sp)) = 1 ∧
        ∀ m, Call.commit m ∉ (adapter_transaction handle uuid sp (some body) s).2) ∧
      (handle.transactions (body s1).2 = 0 →
        ∀ m, Call.commit m ∉ (adapter_transaction handle uuid sp (some body) s).2 ∧
          Call.rollback m ∉ (adapter_transaction handle uuid sp (some body) s).2)) := by
  have calls : (adapter_transaction handle uuid sp (some body) s).2 =
      match handle.begin (save_point uuid sp) s with
      | .error _ => [.begin (save_point uuid sp)]
      | .ok s1 => .begin (save_point uuid sp) :: .yield ::
          (if 0 < handle.transactions (body s1).2 then
            [if (body s1).1.isNone then .commit (save_point uuid sp)
              else .rollback (save_point uuid sp)]
          else []) :=
    adapter_transaction_calls handle uuid sp body s
  rw [calls]
  refine ⟨?_, ?_, ?_, ?_, ?_⟩
  · intro n hn
    subst hn
    rfl
  · cases handle.begin (save_point uuid sp) s <;> rfl
  · cases handle.begin (save_point uuid sp) s with
    | error e => simp
    | ok s1 =>
      by_cases hn : 0 < handle.transactions (body s1).2 <;>
        cases hs : (body s1).1 <;> simp [hn, hs]
  · cases handle.begin (save_point uuid sp) s with
    | error e => simp
    | ok s1 =>
      by_cases hn : 0 < handle.transactions (body s1).2 <;>
        cases hs : (body s1).1 <;> simp [hn, hs]
  · intro s1 h1
    rw [h1]
    refine ⟨by simp, ?_, ?_, ?_⟩
    · intro hs hn
      simp [hs, hn]
    · intro hs hn
      cases hb : (body s1).1 with
      | none => exact absurd hb hs
      | some f => simp [hn, hb]
    · intro hn
      simp [hn]

/-- Witness for C2 on the reference connection: a block that completes inside
savepoint `sp1` is followed by exactly one `commit("sp1")`. -/
theorem adapter_transaction_sequence_witness :
    (adapter_transaction stackHandle "u" (some "sp1")
      (some (fun st => ((none : Option String), st))) []).2.count (.commit "sp1") = 1 :=
  ((adapter_transaction_sequence stackHandle "u" (some "sp1")
      (fun st => ((none : Option String), st)) []).2.2.2.2 ["sp1"] rfl).2.1 rfl
    (by decide) |>.1

/-- C3 (the code at the failing input): the block rolls its savepoint back
itself and then raises `"boom"`, so the nesting counter is 0 after the block;
`adapter_transaction` issues no further call and returns the success marker,
the failure is not passed on. -/
theorem adapter_transaction_drops_failure :
    (rollbackThenRaise "sp1" "boom" ["sp1"]).1 = some "boom" ∧
    stackHandle.transactions (rollbackThenRaise "sp1" "boom" ["sp1"]).2 = 0 ∧
    adapter_transaction stackHandle "u" (some "sp1")
      (some (rollbackThenRaise "sp1" "boom")) [] =
      (Outcome.returned, [.begin "sp1", .yield]) := by
  decide

/-- C4 as stated fails: the block raises `"boom"` while an outer transaction
keeps the nesting counter at 1, the sequencer's `rollback("sp1")` is rejected
by the connection, and the caller gets the rollback's error, not `"boom"`. -/
theorem adapter_transaction_rollback_masks :
    (rollbackThenRaise "sp1" "boom" ["sp1", "outer"]).1 = some "boom" ∧
    0 < stackHandle.transactions (rollbackThenRaise "sp1" "boom" ["sp1", "outer"]).2 ∧
    (adapter_transaction stackHandle "u" (some "sp1")
      (some (rollbackThenRaise "sp1" "boom")) ["outer"]).1 ≠ Outcome.jumped "boom" ∧
    (adapter_transaction stackHandle "u" (some "sp1")
      (some (rollbackThenRaise "sp1" "boom")) ["outer"]).1 =
      Outcome.raised "no such savepoint: sp1" := by
  decide

/-- C4 amended: when the block raises `f` while the nesting counter is
positive, the caller observes `f` itself if the sequencer's `rollback(name)`
succeeds, and the rollback's own error if the connection rejects it. -/
theorem adapter_transaction_reraise {σ ε φ : Type} (handle : Handle σ ε) (uuid : String)
    (sp : Option String) (body : σ → Option φ × σ) (s s1 s2 : σ) (f : φ)
    (hbegin : handle.begin (save_point uuid sp) s = .ok s1)
    (hbody : body s1 = (some f, s2))
    (hcount : 0 < handle.transactions s2) :
    (∀ s3, handle.rollback (save_point uuid sp) s2 = .ok s3 →
      (adapter_transaction handle uuid sp (some body) s).1 = .jumped f) ∧
    (∀ e, handle.rollback (save_point uuid sp) s2 = .error e →
      (adapter_transaction handle uuid sp (some body) s).1 = .raised e) := by
  constructor
  · intro s3 h3
    simp [adapter_transaction, hbegin, hbody, hcount, h3]
  · intro e he
    simp [adapter_transaction, hbegin, hbody, hcount, he]

/-- Witness for the amended C4: a block that only raises `"boom"` inside
savepoint `sp1` is rolled back and `"boom"` reaches the caller. -/
theorem adapter_transaction_reraise_witness :
    (adapter_transaction stackHandle "u" (some "sp1")
      (some (fun st => (some "boom", st))) []).1 = Outcome.jumped "boom" :=
  (adapter_transaction_reraise stackHandle "u" (some "sp1")
    (fun st => (some "boom", st)) [] ["sp1"] ["sp1"] "boom" rfl rfl (by decide)).1 [] rfl

set_option maxRecDepth 100000

/-! ## Theorems : `typecast_field`, boolean tag -/

/-- C9: under the boolean tag `typecast_field` returns a boolean that is true
exactly when the first byte of the span is `t` or `1`; `"1"` gives true and
`"0"` gives false. -/
theorem typecast_field_boolean {ε : Type} (env : Env) (data : List Char)
    (timezone : Option (List Char)) :
    (∃ b, (typecast_field env .boolean data timezone : Except (Failure ε) Value) =
        .ok (.bool b) ∧
      (b = true ↔ (data.head? = some 't' ∨ data.head? = some '1'))) ∧
    (typecast_field env .boolean "1".toList timezone : Except (Failure ε) Value) =
      .ok (.bool true) ∧
    (typecast_field env .boolean "0".toList timezone : Except (Failure ε) Value) =
      .ok (.bool false) := by
  refine ⟨⟨_, rfl, ?_⟩, rfl, rfl⟩
  cases data with
  | nil => simp [byteAt, NUL]
  | cons c cs => simp [byteAt]

/-! ## Theorems : `typecast_timestamp` -/

/-- The suffix scan finds no sign when no `+` or `-` follows the matched text. -/
theorem peek_dropWhile_no_sign (l : List Char) (h : ∀ c ∈ l, c ≠ '+' ∧ c ≠ '-') :
    peek (l.dropWhile (fun c => c != NUL && c != '+' && c != '-')) = NUL := by
  induction l with
  | nil => rfl
  | cons c l ih =>
    rw [List.dropWhile_cons]
    split
    · exact ih (fun x hx => h x (List.mem_cons_of_mem _ hx))
    · rename_i hc
      have h1 := h c (List.mem_cons_self _ _)
      simp only [peek, List.headD_cons]
      by_contra hne
      apply hc
      simp [hne, h1.1, h1.2]

/-- Without a sign after the matched text `tzsign` stays 0. -/
theorem scan_tz_no_sign (data : List Char) (lastmatch : Int)
    (h : 0 < lastmatch → ∀ c ∈ data.drop lastmatch.toNat, c ≠ '+' ∧ c ≠ '-') :
    (scan_tz data lastmatch).1 = NUL := by
  unfold scan_tz
  split
  · rename_i hc
    have hp := peek_dropWhile_no_sign _ (h hc.1)
    simp only [apply_ite Prod.fst, hp, ite_self]
  · rfl

/-- C7: a text whose parsed day of month is 0 (in particular one where `sscanf`
stored fewer than the three date fields) is returned as a String holding the
input bytes unchanged, whatever the time zone context; a text whose parsed day
is positive gives a Time. -/
theorem typecast_timestamp_day (env : Env) (data : List Char) (zone : Option (List Char)) :
    ((sscanf data timestampFormat).length < 3 → (scan_fields data).1.tm_mday = 0) ∧
    ((scan_fields data).1.tm_mday = 0 →
      typecast_timestamp env data zone = .string .binary data) ∧
    (0 < (scan_fields data).1.tm_mday →
      ∃ sec usec, typecast_timestamp env data zone = .time sec usec) := by
  refine ⟨?_, ?_, ?_⟩
  · intro h
    have : (sscanf data timestampFormat)[2]? = none :=
      List.getElem?_eq_none (by omega)
    simp [scan_fields, intItem, this]
  · intro h
    simp [typecast_timestamp, h]
  · intro h
    simp [typecast_timestamp, h]

/-- Witness for C7: the all-zero date comes back as the text it was, also
under a time zone context. -/
theorem typecast_timestamp_day_witness :
    typecast_timestamp ⟨utc, fun _ => utc⟩ "0000-00-00 00:00:00".toList (some "UTC".toList) =
      .string .binary "0000-00-00 00:00:00".toList :=
  (typecast_timestamp_day ⟨utc, fun _ => utc⟩ "0000-00-00 00:00:00".toList
    (some "UTC".toList)).2.1 (by decide)

/-- C10: for a text with a positive day, no `+` or `-` after the matched
prefix and fraction, and no time zone context, the offset is `adjust`, so the
Time returned is `epoch`, the `mktime` of the parsed fields in the client zone,
with the parsed microseconds; with client zone UTC `"2012-06-15 14:30:00"`
gives 1339770600, i.e. 2012-06-15T14:30:00Z. -/
theorem typecast_timestamp_client_local (env : Env) (data : List Char)
    (hday : 0 < (scan_fields data).1.tm_mday)
    (hsuffix : 0 < (scan_subsec data (scan_fields data).2).2 →
      ∀ c ∈ data.drop (scan_subsec data (scan_fields data).2).2.toNat, c ≠ '+' ∧ c ≠ '-') :
    typecast_timestamp env data none =
      .time (env.client.mktime { (scan_fields data).1 with
          tm_year := (scan_fields data).1.tm_year - 1900,
          tm_mon := (scan_fields data).1.tm_mon - 1,
          tm_isdst := -1 }).1
        (scan_subsec data (scan_fields data).2).1 ∧
    ∀ zoneOf, typecast_timestamp ⟨utc, zoneOf⟩ "2012-06-15 14:30:00".toList none =
      .time 1339770600 0 := by
  constructor
  · have hz := scan_tz_no_sign data _ hsuffix
    simp [typecast_timestamp, hday, hz]
  · intro zoneOf
    rfl

/-- Witness for C10: Central European summer time, no suffix, no context. -/
theorem typecast_timestamp_client_local_witness :
    typecast_timestamp ⟨berlin, fun _ => utc⟩ "2012-06-15 14:30:00.5".toList none =
      .time 1339763400 500000 :=
  (typecast_timestamp_client_local ⟨berlin, fun _ => utc⟩ "2012-06-15 14:30:00.5".toList
    (by decide) (by decide)).1

/-- C5 (the code at the failing input): with the client in Lord Howe Island
during its half-hour daylight saving time, `"2012-01-15 14:30:00+02:00"`
decodes to 1326632400 (13:00:00Z), half an hour after the instant
1326630600 (12:30:00Z) that the fields read as UTC minus the suffix give; in
UTC and in a zone with a one hour shift the same text decodes to 1326630600. -/
theorem typecast_timestamp_lord_howe :
    (∀ zoneOf zone, typecast_timestamp ⟨lordHowe, zoneOf⟩
      "2012-01-15 14:30:00+02:00".toList zone = .time 1326632400 0) ∧
    timegm ⟨0, 30, 14, 15, 0, 112, -1⟩ - (2 * 3600 + 0 * 60) = 1326630600 ∧
    (∀ zoneOf zone, typecast_timestamp ⟨utc, zoneOf⟩
      "2012-01-15 14:30:00+02:00".toList zone = .time 1326630600 0) ∧
    (∀ zoneOf zone, typecast_timestamp ⟨berlin, zoneOf⟩
      "2012-06-15 14:30:00+02:00".toList zone = .time 1339763400 0) := by
  refine ⟨?_, by decide, ?_, ?_⟩ <;> intro zoneOf zone <;> cases zone <;> rfl

/-! ## Theorems : `typecast_field`, integer tag -/

/-- A decimal digit is none of the characters the parser treats specially. -/
theorem isdigit_ne {c : Char} (h : isdigit c = true) :
    c ≠ NUL ∧ c ≠ '+' ∧ c ≠ '-' ∧ c ≠ '_' ∧ c ≠ 'd' ∧ c ≠ 'D' ∧ isspace c = false := by
  refine ⟨?_, ?_, ?_, ?_, ?_, ?_, ?_⟩
  · rintro rfl; exact absurd h (by decide)
  · rintro rfl; exact absurd h (by decide)
  · rintro rfl; exact absurd h (by decide)
  · rintro rfl; exact absurd h (by decide)
  · rintro rfl; exact absurd h (by decide)
  · rintro rfl; exact absurd h (by decide)
  · have h1 : '0' ≤ c := by
      simp only [isdigit, Bool.and_eq_true, decide_eq_true_eq] at h
      exact h.1
    have h2 : ¬ (c = ' ') := by rintro rfl; exact absurd h (by decide)
    have h3 : ¬ (c ≤ Char.ofNat 13) := by
      intro h4
      have := Char.le_trans h1 h4
      exact absurd this (by decide)
    simp [isspace, h2, h3]

/-- The digit loop on a run of digits computes its decimal value. -/
theorem inumDigits_digits (l : List Char) (h : ∀ c ∈ l, isdigit c = true) (nd : Bool)
    (acc : Nat) :
    inumDigits l nd acc = l.foldl (fun a c => a * 10 + (c.toNat - 48)) acc := by
  induction l generalizing nd acc with
  | nil => rfl
  | cons c l ih =>
    have hc := h c (List.mem_cons_self _ _)
    have hne := isdigit_ne hc
    simp only [inumDigits, hne.2.2.2.1, hc, if_true, if_false, List.foldl_cons]
    exact ih (fun x hx => h x (List.mem_cons_of_mem _ hx)) false _

/-- A leading `0` does not change the decimal value. -/
theorem decimalValue_zero_cons (l : List Char) : decimalValue ('0' :: l) = decimalValue l := by
  simp [decimalValue]

/-- Squeezing the zeros of a run of digits keeps digits, keeps the value, and
leaves a `0` behind when it eats the whole run. -/
theorem squeezeZeros_digits (r : List Char) (h : ∀ c ∈ r, isdigit c = true) (prev : Char)
    (us : Nat) :
    (∀ c ∈ (squeezeZeros r prev us).2, isdigit c = true) ∧
    decimalValue (squeezeZeros r prev us).2 = decimalValue r ∧
    ((squeezeZeros r prev us).2 = [] →
      (squeezeZeros r prev us).1 = '0' ∨ (squeezeZeros r prev us).1 = prev) := by
  induction r generalizing prev us with
  | nil => simp [squeezeZeros]
  | cons c r ih =>
    have hc := h c (List.mem_cons_self _ _)
    have hr : ∀ x ∈ r, isdigit x = true := fun x hx => h x (List.mem_cons_of_mem _ hx)
    have hne := isdigit_ne hc
    by_cases h0 : c = '0'
    · subst h0
      have := ih hr '0' 0
      simp only [squeezeZeros, if_true]
      refine ⟨this.1, ?_, ?_⟩
      · rw [this.2.1, decimalValue_zero_cons]
      · intro hnil
        rcases this.2.2 hnil with h1 | h1 <;> exact Or.inl h1
    · have e : squeezeZeros (c :: r) prev us = (prev, c :: r) := by
        simp [squeezeZeros, h0, hne.2.2.2.1]
      rw [e]
      exact ⟨h, rfl, fun hnil => absurd hnil (by simp)⟩

/-- On a run of digits the marker test passes nothing over. -/
theorem radixMark_digits (d : Char) (ds : List Char) (h : ∀ c ∈ ds, isdigit c = true) :
    radixMark (d :: ds) = d :: ds := by
  unfold radixMark
  split
  · rename_i r heq
    injection heq with h1 h2
    have := (isdigit_ne (h 'd' (by rw [h2]; exact List.mem_cons_self _ _))).2.2.2.2.1
    exact absurd rfl this
  · rename_i r heq
    injection heq with h1 h2
    have := (isdigit_ne (h 'D' (by rw [h2]; exact List.mem_cons_self _ _))).2.2.2.2.2.1
    exact absurd rfl this
  · rfl

/-- After the zeros of a run of digits are squeezed, what is left is a
non-empty run of digits with the same value. -/
theorem leadingZeros_digits (d : Char) (ds : List Char)
    (h : ∀ c ∈ d :: ds, isdigit c = true) :
    leadingZeros (d :: ds) ≠ [] ∧ (∀ c ∈ leadingZeros (d :: ds), isdigit c = true) ∧
    decimalValue (leadingZeros (d :: ds)) = decimalValue (d :: ds) := by
  have hds : ∀ x ∈ ds, isdigit x = true := fun x hx => h x (List.mem_cons_of_mem _ hx)
  by_cases h0 : d = '0'
  · subst h0
    have hq := squeezeZeros_digits ds hds '0' 0
    have e : leadingZeros ('0' :: ds) =
        if (squeezeZeros ds '0' 0).2 = [] ∨ isspace (peek (squeezeZeros ds '0' 0).2) = true
        then (squeezeZeros ds '0' 0).1 :: (squeezeZeros ds '0' 0).2
        else (squeezeZeros ds '0' 0).2 := rfl
    rw [e]
    by_cases hnil : (squeezeZeros ds '0' 0).2 = []
    · have h1 : (squeezeZeros ds '0' 0).1 = '0' := by
        rcases hq.2.2 hnil with h1 | h1 <;> exact h1
      have hv : decimalValue ds = 0 := by rw [← hq.2.1, hnil]; rfl
      rw [if_pos (Or.inl hnil), hnil, h1]
      refine ⟨by simp, fun c hc => ?_, ?_⟩
      · rw [List.mem_singleton.mp hc]; rfl
      · rw [decimalValue_zero_cons, decimalValue_zero_cons, hv]; rfl
    · obtain ⟨c, cs, hcs⟩ := List.exists_cons_of_ne_nil hnil
      have hcd : isdigit c = true := hq.1 c (by rw [hcs]; exact List.mem_cons_self _ _)
      have hcsp := (isdigit_ne hcd).2.2.2.2.2.2
      have hno : ¬ ((squeezeZeros ds '0' 0).2 = [] ∨
          isspace (peek (squeezeZeros ds '0' 0).2) = true) := by
        rw [hcs]
        simp [peek, hcsp]
      rw [if_neg hno]
      exact ⟨hnil, hq.1, by rw [hq.2.1, decimalValue_zero_cons]⟩
  · have e : leadingZeros (d :: ds) = d :: ds := by
      unfold leadingZeros
      split
      · rename_i r heq
        injection heq with h1 h2
        exact absurd h1 h0
      · rfl
    rw [e]
    exact ⟨by simp, h, rfl⟩

/-- The value read from a non-empty run of digits. -/
theorem inumValue_digits (s : List Char) (hs : s ≠ []) (h : ∀ c ∈ s, isdigit c = true)
    (neg : Bool) :
    inumValue s neg = if neg then - (decimalValue s : Int) else decimalValue s := by
  obtain ⟨c, cs, rfl⟩ := List.exists_cons_of_ne_nil hs
  have hc := h c (List.mem_cons_self _ _)
  have hin := inumDigits_digits (c :: cs) h false 0
  simp only [inumValue, peek, List.headD_cons, hc, if_true, hin]
  rfl

/-- The lenient parser reads a well-formed decimal integer in full. -/
theorem rb_cstr2inum_digits (d : Char) (ds : List Char)
    (h : ∀ c ∈ d :: ds, isdigit c = true) :
    rb_cstr2inum (d :: ds) = decimalValue (d :: ds) ∧
    rb_cstr2inum ('+' :: d :: ds) = decimalValue (d :: ds) ∧
    rb_cstr2inum ('-' :: d :: ds) = - (decimalValue (d :: ds) : Int) := by
  have hd := h d (List.mem_cons_self _ _)
  have hds : ∀ x ∈ ds, isdigit x = true := fun x hx => h x (List.mem_cons_of_mem _ hx)
  have hne := isdigit_ne hd
  have hnul : ∀ x ∈ d :: ds, (x != NUL) = true := fun x hx => by
    simpa using (isdigit_ne (h x hx)).1
  have hc0 : cstring (d :: ds) = d :: ds := List.takeWhile_eq_self_iff.mpr hnul
  have hc1 : cstring ('+' :: d :: ds) = '+' :: d :: ds :=
    List.takeWhile_eq_self_iff.mpr (fun x hx => by
      rcases List.mem_cons.mp hx with rfl | hx
      · decide
      · exact hnul x hx)
  have hc2 : cstring ('-' :: d :: ds) = '-' :: d :: ds :=
    List.takeWhile_eq_self_iff.mpr (fun x hx => by
      rcases List.mem_cons.mp hx with rfl | hx
      · decide
      · exact hnul x hx)
  have hsp : (d :: ds).dropWhile isspace = d :: ds := by
    rw [List.dropWhile_cons, hne.2.2.2.2.2.2]; rfl
  have hz := leadingZeros_digits d ds h
  have core : ∀ neg, inumValue (leadingZeros (radixMark (d :: ds))) neg =
      if neg then - (decimalValue (d :: ds) : Int) else decimalValue (d :: ds) := by
    intro neg
    rw [radixMark_digits d ds hds, inumValue_digits _ hz.1 hz.2.1, hz.2.2]
  refine ⟨?_, ?_, ?_⟩
  · simp only [rb_cstr2inum, hc0, hsp]
    simp [hne.2.1, hne.2.2.1, core]
  · simp only [rb_cstr2inum, hc1]
    simp only [List.dropWhile_cons, show isspace '+' = false by decide]
    simp [hne.2.1, hne.2.2.1, core]
  · simp only [rb_cstr2inum, hc2]
    simp only [List.dropWhile_cons, show isspace '-' = false by decide]
    simp [hne.2.1, hne.2.2.1, core]

/-- C6 as stated fails: under the integer tag `"abc"` decodes to 0 and
`"12abc"` to 12; no error is raised. -/
theorem typecast_field_int_abc :
    (typecast_field ⟨utc, fun _ => utc⟩ .int "abc".toList none : Except (Failure Unit) Value) =
      .ok (.int 0) ∧
    (typecast_field ⟨utc, fun _ => utc⟩ .int "12abc".toList none : Except (Failure Unit) Value) =
      .ok (.int 12) :=
  ⟨rfl, rfl⟩

/-- C6 amended: under the integer tag `typecast_field` never fails; a span
that is an optional sign followed by one or more decimal digits decodes to its
base-10 value. -/
theorem typecast_field_int {ε : Type} (env : Env) (timezone : Option (List Char)) :
    (∀ data, ∃ n, (typecast_field env .int data timezone : Except (Failure ε) Value) =
      .ok (.int n)) ∧
    (∀ d ds, (∀ c ∈ d :: ds, isdigit c = true) →
      (typecast_field env .int (d :: ds) timezone : Except (Failure ε) Value) =
        .ok (.int (decimalValue (d :: ds))) ∧
      (typecast_field env .int ('+' :: d :: ds) timezone : Except (Failure ε) Value) =
        .ok (.int (decimalValue (d :: ds))) ∧
      (typecast_field env .int ('-' :: d :: ds) timezone : Except (Failure ε) Value) =
        .ok (.int (- (decimalValue (d :: ds) : Int)))) := by
  constructor
  · intro data
    exact ⟨_, rfl⟩
  · intro d ds h
    have := rb_cstr2inum_digits d ds h
    simp only [typecast_field, this.1, this.2.1, this.2.2, and_self]

/-- Witness for the amended C6: `"-042"` decodes to -42. -/
theorem typecast_field_int_witness :
    (typecast_field ⟨utc, fun _ => utc⟩ .int "-042".toList none : Except (Failure Unit) Value) =
      .ok (.int (-42)) :=
  ((typecast_field_int ⟨utc, fun _ => utc⟩ none).2 '0' "42".toList (by decide)).2.2

/-! ## Theorems : `result_each` -/

/-- Keys of a Hash after `rb_hash_aset`: unchanged for a key already there,
otherwise the new key comes last. -/
theorem rb_hash_aset_keys (t : Record) (k : String) (v : Value) :
    (rb_hash_aset t k v).map Prod.fst =
      if k ∈ t.map Prod.fst then t.map Prod.fst else t.map Prod.fst ++ [k] := by
  induction t with
  | nil => simp [rb_hash_aset]
  | cons p t ih =>
    obtain ⟨k1, v1⟩ := p
    by_cases h : k1 = k
    · simp [rb_hash_aset, h]
    · have h2 : ¬ k = k1 := fun e => h e.symm
      simp only [rb_hash_aset, h, if_false, List.map_cons, ih, List.mem_cons, h2, false_or]
      split <;> simp

/-- A key that is not in the Hash yet is appended with its value. -/
theorem rb_hash_aset_fresh (t : Record) (k : String) (v : Value)
    (h : k ∉ t.map Prod.fst) : rb_hash_aset t k v = t ++ [(k, v)] := by
  induction t with
  | nil => rfl
  | cons p t ih =>
    obtain ⟨k1, v1⟩ := p
    have h1 : ¬ k1 = k := fun e => h (by simp [e])
    have h2 : k ∉ t.map Prod.fst := fun e => h (by simp [e])
    simp only [rb_hash_aset, h1, if_false, ih h2, List.cons_append]

/-- The column loop over the first `n` columns, when the names are distinct and
no decode raises: it ends with one entry per column, keyed in column order, and
the entry of column `col` holds `nil` for an absent cell of `row` and otherwise
what `typecast_field` returns for the bytes read at `(row, col)` under the
column's type tag. -/
theorem row_tuple_columns {ε : Type} (env : Env) (result : ResultCursor)
    (timezone : Option (List Char)) (row : Nat)
    (hcols : result.columns = result.fields.length)
    (htypes : result.fields.length = result.types.length)
    (hnames : result.fields.Nodup)
    (hdecode : ∀ col data type, col < result.columns →
      result.read row col = some data → result.types.get? col = some type →
      ∃ v, (typecast_field env type data timezone : Except (Failure ε) Value) = .ok v)
    (n : Nat) (hn : n ≤ result.columns) :
    ∃ t, (List.range n).foldlM (set_column env result timezone row) [] =
        (.ok t : Except (Failure ε) Record) ∧
      t.map Prod.fst = result.fields.take n ∧
      ∀ col, col < n → ∃ field type value,
        result.fields.get? col = some field ∧ result.types.get? col = some type ∧
        (match result.read row col with
          | none => (.ok .nil : Except (Failure ε) Value)
          | some data => typecast_field env type data timezone) = .ok value ∧
        t.get? col = some (field, value) := by
  induction n with
  | zero => exact ⟨[], rfl, by simp, fun col hcol => absurd hcol (by omega)⟩
  | succ n ih =>
    obtain ⟨t, ht, hk, hcells⟩ := ih (by omega)
    have hlt : n < result.fields.length := by omega
    have hlt2 : n < result.types.length := by omega
    have hfield : result.fields.get? n = some (result.fields[n]) := by
      simp [List.getElem?_eq_getElem hlt]
    have htype : result.types.get? n = some (result.types[n]) := by
      simp [List.getElem?_eq_getElem hlt2]
    have hlen : t.length = n := by
      have := congrArg List.length hk
      simp only [List.length_map, List.length_take] at this
      omega
    have hnew : result.fields[n] ∉ t.map Prod.fst := by
      rw [hk]
      intro hmem
      obtain ⟨i, hi, he⟩ := List.getElem_of_mem hmem
      have hi2 : i < n := by
        have := hi
        simp only [List.length_take] at this
        omega
      rw [List.getElem_take] at he
      have := (List.Nodup.getElem_inj_iff hnames).mp he
      omega
    have hkeys : ∀ v, (rb_hash_aset t result.fields[n] v).map Prod.fst =
        result.fields.take (n + 1) := by
      intro v
      rw [rb_hash_aset_keys, if_neg hnew, hk, List.take_succ,
        List.getElem?_eq_getElem hlt]
      rfl
    have hold : ∀ v col, col < n →
        (rb_hash_aset t result.fields[n] v).get? col = t.get? col := by
      intro v col hcol
      rw [rb_hash_aset_fresh t _ v hnew]
      simp only [List.get?_eq_getElem?]
      exact List.getElem?_append_left (by omega)
    have hlast : ∀ v, (rb_hash_aset t result.fields[n] v).get? n =
        some (result.fields[n], v) := by
      intro v
      rw [rb_hash_aset_fresh t _ v hnew]
      simp only [List.get?_eq_getElem?]
      rw [List.getElem?_append_right (by omega), hlen]
      simp
    have hstep : ∃ t1 value, set_column env result timezone row t n =
        (.ok t1 : Except (Failure ε) Record) ∧
        t1 = rb_hash_aset t result.fields[n] value ∧
        (match result.read row n with
          | none => (.ok .nil : Except (Failure ε) Value)
          | some data => typecast_field env result.types[n] data timezone) = .ok value := by
      unfold set_column
      rw [hfield]
      cases hr : result.read row n with
      | none => exact ⟨_, .nil, rfl, rfl, rfl⟩
      | some data =>
        obtain ⟨v, hv⟩ := hdecode n data _ (by omega) hr htype
        simp only [htype, hv]
        exact ⟨_, v, rfl, rfl, rfl⟩
    obtain ⟨t1, value, ht1, he1, hv1⟩ := hstep
    refine ⟨t1, ?_, by rw [he1]; exact hkeys value, ?_⟩
    · rw [List.range_succ, List.foldlM_append, ht]
      simp only [List.foldlM_cons, List.foldlM_nil]
      show (set_column env result timezone row t n >>= fun t2 => pure t2) = _
      rw [ht1]
      rfl
    · intro col hcol
      by_cases hc : col < n
      · obtain ⟨field, type, v, h1, h2, h3, h4⟩ := hcells col hc
        exact ⟨field, type, v, h1, h2, h3, by rw [he1, hold value col hc]; exact h4⟩
      · have hcn : col = n := by omega
        subst hcn
        exact ⟨_, _, value, hfield, htype, hv1, by rw [he1]; exact hlast value⟩

/-- A row loop whose rows all build and project returns one value per row, in
order, and no failure. -/
theorem each_rows_ok {ε γ : Type} (env : Env) (result : ResultCursor)
    (timezone : Option (List Char)) (scheme : Option (Record → Except ε γ)) (l : List Nat)
    (h : ∀ k ∈ l, ∃ tuple y,
      (row_tuple env result timezone k : Except (Failure ε) Record) = .ok tuple ∧
      (yielded scheme tuple : Except (Failure ε) (Record ⊕ γ)) = .ok y) :
    ∃ ys, (each_rows env result timezone scheme l : List (Record ⊕ γ) × Option (Failure ε)) =
        (ys, none) ∧ ys.length = l.length ∧
      ∀ i (hi : i < l.length), ∃ tuple y,
        (row_tuple env result timezone (l.get ⟨i, hi⟩) : Except (Failure ε) Record) =
          .ok tuple ∧
        (yielded scheme tuple : Except (Failure ε) (Record ⊕ γ)) = .ok y ∧
        ys.get? i = some y := by
  induction l with
  | nil => exact ⟨[], rfl, rfl, fun i hi => absurd hi (by simp)⟩
  | cons a l ih =>
    obtain ⟨tuple, y, ht, hy⟩ := h a (List.mem_cons_self _ _)
    obtain ⟨ys, hys, hlen, hget⟩ := ih (fun x hx => h x (List.mem_cons_of_mem _ hx))
    refine ⟨y :: ys, ?_, by simp [hlen], ?_⟩
    · simp only [each_rows, ht, hy, hys]
    · intro i hi
      cases i with
      | zero => exact ⟨tuple, y, ht, hy, rfl⟩
      | succ i =>
        obtain ⟨t2, z, hz1, hz2, hz3⟩ := hget i (by simpa using hi)
        exact ⟨t2, z, hz1, hz2, by simpa using hz3⟩

/-- C1 as stated fails: the cursor of `select 1 as a, 2 as a` has one row, two
columns, two names and two type tags, and the Record yielded for its row has
one entry. -/
theorem result_each_twin :
    twinCursor.columns = twinCursor.fields.length ∧
    twinCursor.fields.length = twinCursor.types.length ∧
    (result_each ⟨utc, fun _ => utc⟩ twinCursor none
      (none : Option (Record → Except Unit Unit))) = ([.inl [("a", .int 2)]], none) ∧
    ([("a", Value.int 2)] : Record).length ≠ twinCursor.columns :=
  ⟨rfl, rfl, rfl, by decide⟩

/-- C1 amended: for a cursor with `rowCount = R`, `columnCount = C`,
`C = len(typeTags) = len(columnNames)` and pairwise distinct column names, when
no decode and no projection step raises, `result_each` yields exactly `R` values
and ends without failure.  The `k`-th value is the Record built from row `k`,
or what the projection returns for that Record.  That Record has exactly `C`
entries, the entry of column `col` being keyed by the name of the column and
holding `nil` when `read(k, col)` is absent and otherwise the value
`typecast_field` returns for the bytes `read(k, col)` under the type tag of the
column. -/
theorem result_each_rows {ε γ : Type} (env : Env) (result : ResultCursor)
    (timezone : Option (List Char)) (scheme : Option (Record → Except ε γ))
    (hcols : result.columns = result.fields.length)
    (htypes : result.fields.length = result.types.length)
    (hnames : result.fields.Nodup)
    (hdecode : ∀ row col data type, row < result.rows → col < result.columns →
      result.read row col = some data → result.types.get? col = some type →
      ∃ v, (typecast_field env type data timezone : Except (Failure ε) Value) = .ok v)
    (hload : ∀ load, scheme = some load → ∀ row tuple, row < result.rows →
      (row_tuple env result timezone row : Except (Failure ε) Record) = .ok tuple →
      ∃ obj, load tuple = .ok obj) :
    ∃ ys, result_each env result timezone scheme = (ys, none) ∧ ys.length = result.rows ∧
      ∀ k, k < result.rows → ∃ tuple y,
        ys.get? k = some y ∧
        (scheme = none → y = .inl tuple) ∧
        (∀ load, scheme = some load → ∃ obj, load tuple = .ok obj ∧ y = .inr obj) ∧
        tuple.length = result.columns ∧ tuple.map Prod.fst = result.fields ∧
        ∀ col, col < result.columns → ∃ field type value,
          result.fields.get? col = some field ∧ result.types.get? col = some type ∧
          (match result.read k col with
            | none => (.ok .nil : Except (Failure ε) Value)
            | some data => typecast_field env type data timezone) = .ok value ∧
          tuple.get? col = some (field, value) := by
  have hrow : ∀ k, k < result.rows → ∃ tuple,
      (row_tuple env result timezone k : Except (Failure ε) Record) = .ok tuple ∧
      tuple.map Prod.fst = result.fields ∧
      ∀ col, col < result.columns → ∃ field type value,
        result.fields.get? col = some field ∧ result.types.get? col = some type ∧
        (match result.read k col with
          | none => (.ok .nil : Except (Failure ε) Value)
          | some data => typecast_field env type data timezone) = .ok value ∧
        tuple.get? col = some (field, value) := by
    intro k hk
    obtain ⟨t, ht, hkeys, hcells⟩ := row_tuple_columns env result timezone k hcols htypes
      hnames (fun col data type hc hr hty => hdecode k col data type hk hc hr hty)
      result.columns (Nat.le_refl _)
    refine ⟨t, ht, ?_, hcells⟩
    rw [hkeys, hcols, List.take_length]
  have hyield : ∀ k tuple, k < result.rows →
      (row_tuple env result timezone k : Except (Failure ε) Record) = .ok tuple →
      ∃ y, (yielded scheme tuple : Except (Failure ε) (Record ⊕ γ)) = .ok y ∧
        (scheme = none → y = .inl tuple) ∧
        (∀ load, scheme = some load → ∃ obj, load tuple = .ok obj ∧ y = .inr obj) := by
    intro k tuple hk ht
    cases hs : scheme with
    | none => exact ⟨_, rfl, fun _ => rfl, fun load h => by cases h⟩
    | some load =>
      obtain ⟨obj, ho⟩ := hload load hs k tuple hk ht
      refine ⟨.inr obj, by simp [yielded, ho], (fun h => by cases h), fun load2 h2 => ?_⟩
      have : load = load2 := by injection h2
      subst this
      exact ⟨obj, ho, rfl⟩
  have hstep : ∀ k ∈ List.range result.rows, ∃ tuple y,
      (row_tuple env result timezone k : Except (Failure ε) Record) = .ok tuple ∧
      (yielded scheme tuple : Except (Failure ε) (Record ⊕ γ)) = .ok y := by
    intro k hk
    obtain ⟨tuple, ht, _⟩ := hrow k (List.mem_range.mp hk)
    obtain ⟨y, hy, _⟩ := hyield k tuple (List.mem_range.mp hk) ht
    exact ⟨tuple, y, ht, hy⟩
  obtain ⟨ys, hys, hlen, hget⟩ := each_rows_ok env result timezone scheme _ hstep
  refine ⟨ys, hys, by simpa using hlen, ?_⟩
  intro k hk
  obtain ⟨tuple, ht, hkeys, hcells⟩ := hrow k hk
  obtain ⟨t2, y, hy0, hy2, hy1⟩ := hget k (by simpa using hk)
  have hk2 : (List.range result.rows).get ⟨k, by simpa using hk⟩ = k := by simp
  rw [hk2, ht] at hy0
  have ht2 : tuple = t2 := by injection hy0
  subst ht2
  obtain ⟨y2, hy3, hy4, hy5⟩ := hyield k tuple hk ht
  have hyy : y = y2 := by
    have := hy2.symm.trans hy3
    injection this
  subst hyy
  refine ⟨tuple, y, hy1, hy4, hy5, ?_, hkeys, hcells⟩
  have := congrArg List.length hkeys
  simpa [hcols] using this

/-- Witness for the amended C1: the two rows of the sample cursor give two
Records; the second one holds the 8 read at row 1 under `id` and `nil` for the
absent cell under `ok`. -/
theorem result_each_rows_witness :
    ∃ ys, result_each ⟨utc, fun _ => utc⟩ sampleCursor none
        (none : Option (Record → Except Unit Unit)) = (ys, none) ∧ ys.length = 2 ∧
      ys.get? 1 = some (.inl [("id", .int 8), ("ok", .nil)]) :=
  (result_each_rows ⟨utc, fun _ => utc⟩ sampleCursor none
    (none : Option (Record → Except Unit Unit)) rfl rfl (by decide)
    (fun row col data type _ hc _ ht => by
      have hc2 : col = 0 ∨ col = 1 := by
        have : col < 2 := hc
        omega
      rcases hc2 with rfl | rfl
      · have : type = TypeTag.int := by
          have h2 : some TypeTag.int = some type := ht
          injection h2 with h3
          exact h3.symm
        subst this
        exact ⟨_, rfl⟩
      · have : type = TypeTag.boolean := by
          have h2 : some TypeTag.boolean = some type := ht
          injection h2 with h3
          exact h3.symm
        subst this
        exact ⟨_, rfl⟩)
    (fun load h => by cases h)).imp (fun ys h => ⟨h.1, h.2.1, by
      have h1 := h.1
      have h2 : result_each ⟨utc, fun _ => utc⟩ sampleCursor none
          (none : Option (Record → Except Unit Unit)) =
          ([.inl [("id", .int 7), ("ok", .bool true)], .inl [("id", .int 8), ("ok", .nil)]],
            none) := rfl
      rw [h2] at h1
      injection h1 with h3 _
      rw [← h3]
      rfl⟩)

/-! ## Theorems : the fraction of a second -/

/-- The bit length brackets a positive number between two powers of two. -/
theorem bitLength_bounds (fuel n : Nat) (hf : n ≤ fuel) (hn : 0 < n) :
    2 ^ (bitLength fuel n - 1) ≤ n ∧ n < 2 ^ bitLength fuel n := by
  induction fuel generalizing n with
  | zero => omega
  | succ fuel ih =>
    have hne : n ≠ 0 := by omega
    simp only [bitLength, hne, if_false, Nat.add_sub_cancel]
    by_cases h2 : n / 2 = 0
    · have h1 : n = 1 := by omega
      subst h1
      cases fuel <;> simp [bitLength]
    · have hpos : 0 < n / 2 := Nat.pos_of_ne_zero h2
      have := ih (n / 2) (by omega) hpos
      have hb : 1 ≤ bitLength fuel (n / 2) := by
        cases fuel with
        | zero => omega
        | succ f => simp [bitLength, h2]
      constructor
      · have h3 : 2 ^ bitLength fuel (n / 2) = 2 * 2 ^ (bitLength fuel (n / 2) - 1) := by
          rw [← pow_succ']
          congr 1
          omega
        rw [h3]
        omega
      · rw [pow_succ]
        omega

/-- An exact quotient is its own rounding. -/
theorem roundQuot_exact (q b : Nat) (hb : 0 < b) : roundQuot (q * b) b = q := by
  have h1 : q * b % b = 0 := Nat.mul_mod_left q b
  have h2 : q * b / b = q := Nat.mul_div_cancel q hb
  have h3 : ¬ (b < 2 * 0 ∨ (2 * 0 = b ∧ q % 2 = 1)) := by omega
  simp only [roundQuot, h1, h2, if_neg h3]

/-- A quotient that is an integer below `2^53` is represented exactly. -/
theorem ofRatio_exact (n den : Nat) (hden : 0 < den) (hn : n < 2 ^ 53) :
    (Double.ofRatio (n * den) den).Holds n := by
  by_cases h0 : n = 0
  · subst h0
    simp [Double.ofRatio, Double.Holds]
  have hnum : 0 < n * den := Nat.mul_pos (Nat.pos_of_ne_zero h0) hden
  have hnum0 : n * den ≠ 0 := by omega
  obtain ⟨hlo, -⟩ := bitLength_bounds (n * den) (n * den) (Nat.le_refl _) hnum
  obtain ⟨-, hhi⟩ := bitLength_bounds den den (Nat.le_refl _) hden
  simp only [Double.ofRatio, hnum0, if_false]
  generalize bitLength (n * den) (n * den) = bn at hlo ⊢
  generalize bitLength den den = bd at hhi ⊢
  -- the exponent estimate is never positive
  have hexp : bn - 1 < 53 + bd := by
    have h1 : 2 ^ (bn - 1) < 2 ^ (53 + bd) := by
      calc 2 ^ (bn - 1) ≤ n * den := hlo
        _ < 2 ^ 53 * 2 ^ bd := Nat.mul_lt_mul'' hn hhi
        _ = 2 ^ (53 + bd) := (pow_add 2 53 bd).symm
    exact (Nat.pow_lt_pow_iff_right (by norm_num)).mp h1
  by_cases hneg : ((bn : Int) - (bd : Int) - 53) < 0
  · obtain ⟨k, hk⟩ : ∃ k : Nat, (k : Int) = -((bn : Int) - (bd : Int) - 53) :=
      ⟨(-((bn : Int) - (bd : Int) - 53)).toNat, by omega⟩
    have hk1 : 1 ≤ k := by omega
    have hkt : (-((bn : Int) - (bd : Int) - 53)).toNat = k := by omega
    simp only [hneg, if_true, hkt]
    split
    · have e : n * den * 2 ^ k = n * 2 ^ (k - 1) * (2 * den) := by
        have : 2 ^ k = 2 ^ (k - 1) * 2 := by
          rw [← pow_succ]
          congr 1
          omega
        rw [this]
        ring
      rw [e, roundQuot_exact _ _ (by omega)]
      refine ⟨by simp only; omega, ?_⟩
      simp only
      congr 2
      omega
    · have e : n * den * 2 ^ k = n * 2 ^ k * den := by ring
      rw [e, roundQuot_exact _ _ hden]
      refine ⟨by simp only; omega, ?_⟩
      simp only
      rw [hkt]
  · have hz : ((bn : Int) - (bd : Int) - 53) = 0 := by omega
    have hbig : ¬ (den * 2 ^ (0 : Int).toNat * 2 ^ 53 ≤ n * den) := by
      simp only [Int.toNat_zero, pow_zero, mul_one]
      intro h
      have : den * 2 ^ 53 ≤ den * n := by rw [Nat.mul_comm den n]; exact h
      have := Nat.le_of_mul_le_mul_left this hden
      omega
    simp only [hz, lt_self_iff_false, if_false, hbig]
    simp only [Int.toNat_zero, pow_zero, mul_one]
    rw [roundQuot_exact _ _ hden]
    exact ⟨by simp, by simp⟩

/-- An exactly held integer is read back by `round`. -/
theorem round_exact (x : Double) (n : Nat) (h : x.Holds n) : x.round = n := by
  obtain ⟨he, hm⟩ := h
  unfold Double.round
  split
  · rw [hm]
    have hp : 0 < 2 ^ (-x.e).toNat := Nat.pow_pos (by norm_num)
    generalize 2 ^ (-x.e).toNat = p at hp
    have : 2 * (n * p) + p = (2 * n + 1) * p := by ring
    rw [this, Nat.mul_comm 2 p, ← Nat.div_div_eq_div_mul, Nat.mul_div_cancel _ hp]
    omega
  · have : x.e = 0 := by omega
    rw [hm, this]
    simp

/-- The product of two exactly held integers is held exactly when it is below
`2^53`. -/
theorem mul_exact (x y : Double) (a b : Nat) (hx : x.Holds a) (hy : y.Holds b)
    (hab : a * b < 2 ^ 53) : (x.mul y).Holds (a * b) := by
  obtain ⟨hxe, hxm⟩ := hx
  obtain ⟨hye, hym⟩ := hy
  unfold Double.mul
  split
  · have e : x.m * y.m = a * b * 2 ^ (-(x.e + y.e)).toNat := by
      rw [hxm, hym]
      have : (-(x.e + y.e)).toNat = (-x.e).toNat + (-y.e).toNat := by omega
      rw [this, pow_add]
      ring
    rw [e]
    exact ofRatio_exact _ _ (Nat.pow_pos (by norm_num)) hab
  · have h1 : x.e = 0 := by omega
    have h2 : y.e = 0 := by omega
    have e : x.m * y.m * 2 ^ (x.e + y.e).toNat = a * b * 1 := by
      rw [hxm, hym, h1, h2]
      simp
    rw [e]
    exact ofRatio_exact _ _ (by norm_num) hab

/-- The quotient of an integer by an exactly held divisor of it is held
exactly when it is below `2^53`. -/
theorem natDiv_exact (d : Double) (n q b : Nat) (hd : d.Holds b) (hb : 0 < b)
    (hq : n = q * b) (hlt : q < 2 ^ 53) : (Double.natDiv n d).Holds q := by
  obtain ⟨hde, hdm⟩ := hd
  unfold Double.natDiv
  split
  · have e : n * 2 ^ (-d.e).toNat = q * d.m := by
      rw [hdm, hq]
      ring
    rw [e]
    exact ofRatio_exact _ _ (by rw [hdm]; exact Nat.mul_pos hb (Nat.pow_pos (by norm_num))) hlt
  · have h1 : d.e = 0 := by omega
    have e : d.m * 2 ^ d.e.toNat = b := by
      rw [hdm, h1]
      simp
    rw [e, hq]
    exact ofRatio_exact _ _ hb hlt

/-- The value of a digit is at most 9. -/
theorem digit_le_nine {c : Char} (h : isdigit c = true) : c.toNat - 48 ≤ 9 := by
  simp only [isdigit, Bool.and_eq_true, decide_eq_true_eq] at h
  have h2 : c.toNat ≤ '9'.toNat := h.2
  have h3 : '9'.toNat = 57 := rfl
  omega

/-- Folding digits into an accumulator stays below the next power of ten. -/
theorem foldl_digits_lt (ds : List Char) (h : ∀ c ∈ ds, isdigit c = true) (acc : Nat) :
    ds.foldl (fun a c => a * 10 + (c.toNat - 48)) acc < (acc + 1) * 10 ^ ds.length := by
  induction ds generalizing acc with
  | nil => simp
  | cons c ds ih =>
    have hc := digit_le_nine (h c (List.mem_cons_self _ _))
    have := ih (fun x hx => h x (List.mem_cons_of_mem _ hx)) (acc * 10 + (c.toNat - 48))
    simp only [List.foldl_cons, List.length_cons, pow_succ]
    calc _ < (acc * 10 + (c.toNat - 48) + 1) * 10 ^ ds.length := this
      _ ≤ ((acc + 1) * 10) * 10 ^ ds.length := Nat.mul_le_mul_right _ (by omega)
      _ = (acc + 1) * (10 ^ ds.length * 10) := by ring

/-- A run of `n` digits has a value below `10^n`. -/
theorem decimalValue_lt (ds : List Char) (h : ∀ c ∈ ds, isdigit c = true) :
    decimalValue ds < 10 ^ ds.length := by
  have := foldl_digits_lt ds h 0
  simpa [decimalValue] using this

/-- On a run of digits that fits a `long long`, `atoll` gives its value. -/
theorem atoll_digits (ds : List Char) (h : ∀ c ∈ ds, isdigit c = true)
    (hv : decimalValue ds < 2 ^ 63) : atoll ds = decimalValue ds := by
  have hnul : ∀ x ∈ ds, (x != NUL) = true := fun x hx => by
    simpa using (isdigit_ne (h x hx)).1
  have hc : cstring ds = ds := List.takeWhile_eq_self_iff.mpr hnul
  have hsp : ds.dropWhile isspace = ds := by
    cases ds with
    | nil => rfl
    | cons c cs =>
      rw [List.dropWhile_cons, (isdigit_ne (h c (List.mem_cons_self _ _))).2.2.2.2.2.2]
      rfl
  have hsign : ¬ (ds.head? = some '-' ∨ ds.head? = some '+') := by
    cases ds with
    | nil => simp
    | cons c cs =>
      have := isdigit_ne (h c (List.mem_cons_self _ _))
      simp [this.2.1, this.2.2.1]
  have hminus : ¬ (ds.head? = some '-') := fun e => hsign (Or.inl e)
  have htw : ds.takeWhile isdigit = ds := List.takeWhile_eq_self_iff.mpr h
  have hle : ((decimalValue ds : Nat) : Int) ≤ 2 ^ 63 - 1 := by
    have : (decimalValue ds : Int) < 2 ^ 63 := by exact_mod_cast hv
    omega
  have hplus : ¬ (ds.head? = some '+') := fun e => hsign (Or.inr e)
  simp only [atoll, hc, hsp, hminus, hplus, or_self, if_false, decide_False,
    Bool.false_eq_true, htw]
  exact min_eq_left hle

/-- Line 201 on at most six digits: the digits scaled up to microseconds. -/
theorem subsecToUsec_short (ds : List Char) (h : ∀ c ∈ ds, isdigit c = true)
    (hn : ds.length ≤ 6) :
    subsecToUsec ds = decimalValue ds * 10 ^ (6 - ds.length) ∧
    decimalValue ds * 10 ^ (6 - ds.length) ≤ 999999 := by
  have hv := decimalValue_lt ds h
  have h6 : (10 : Nat) ^ ds.length * 10 ^ (6 - ds.length) = 10 ^ 6 := by
    rw [← pow_add]
    congr 1
    omega
  have hp : 0 < (10 : Nat) ^ (6 - ds.length) := Nat.pow_pos (by norm_num)
  have hprod : decimalValue ds * 10 ^ (6 - ds.length) < 10 ^ 6 := by
    rw [← h6]
    exact Nat.mul_lt_mul_of_pos_right hv hp
  have hpn : (10 : Nat) ^ ds.length ≤ 10 ^ 6 := Nat.pow_le_pow_right (by norm_num) hn
  have hq6 : (10 : Nat) ^ (6 - ds.length) ≤ 10 ^ 6 := Nat.pow_le_pow_right (by norm_num) (by omega)
  have hat : (atoll ds).toNat = decimalValue ds := by
    rw [atoll_digits ds h (by omega)]
    simp
  have hpow : (pow10 ds.length).Holds (10 ^ ds.length) := by
    have := ofRatio_exact (10 ^ ds.length) 1 (by norm_num) (by omega)
    simpa [pow10, Double.ofNat] using this
  have hdiv : (Double.natDiv 1000000 (pow10 ds.length)).Holds (10 ^ (6 - ds.length)) :=
    natDiv_exact _ 1000000 _ (10 ^ ds.length) hpow (Nat.pow_pos (by norm_num))
      (by rw [Nat.mul_comm, h6]; norm_num) (by omega)
  have hval : (Double.ofNat (decimalValue ds)).Holds (decimalValue ds) := by
    have := ofRatio_exact (decimalValue ds) 1 (by norm_num) (by omega)
    simpa [Double.ofNat] using this
  have hmul := mul_exact _ _ _ _ hval hdiv (by omega)
  refine ⟨?_, by omega⟩
  unfold subsecToUsec
  rw [hat]
  exact round_exact _ _ hmul

/-- Lines 190-202 on a text with `.` and at most six digits after `pre`. -/
theorem scan_subsec_short (pre ds rest : List Char) (hpre : 0 < pre.length)
    (h : ∀ c ∈ ds, isdigit c = true) (hrest : isdigit (peek rest) = false)
    (hn : ds.length ≤ 6) :
    (scan_subsec (pre ++ '.' :: ds ++ rest) pre.length).1 =
      decimalValue ds * 10 ^ (6 - ds.length) := by
  have hcond : ((pre.length : Int) > 0 ∧
      (pre.length : Int) < ((pre ++ '.' :: ds ++ rest).length : Nat) ∧
      byteAt (pre ++ '.' :: ds ++ rest) (pre.length : Int).toNat = '.') := by
    refine ⟨by omega, ?_, ?_⟩
    · simp only [List.length_append, List.length_cons]
      omega
    · have : (pre ++ '.' :: ds ++ rest)[pre.length]? = some '.' := by
        rw [List.append_assoc, List.getElem?_append_right (Nat.le_refl _)]
        simp
      simp only [byteAt, List.getD_eq_getElem?_getD, Int.toNat_ofNat, this, Option.getD_some]
  have hdig : subsecDigits (pre ++ '.' :: ds ++ rest) ((pre.length : Int).toNat + 1) = ds := by
    have e : pre ++ '.' :: ds ++ rest = (pre ++ ['.']) ++ (ds ++ rest) := by simp
    have hl : (pre.length : Int).toNat + 1 = (pre ++ ['.']).length := by simp
    have htw : (ds ++ rest).takeWhile isdigit = ds := by
      rw [List.takeWhile_append_of_pos h]
      cases rest with
      | nil => simp
      | cons c cs =>
        have : isdigit c = false := hrest
        simp [List.takeWhile_cons, this]
    unfold subsecDigits
    rw [e, hl, List.drop_left, htw]
    exact List.take_of_length_le (by omega)
  unfold scan_subsec
  rw [if_pos hcond]
  simp only [hdig]
  exact (subsecToUsec_short ds h hn).1

/-- C8 as stated fails: seven digits are not cut to the first six but rounded,
`.1234567` gives 123457 microseconds (the first six digits are 123456) and
`.9999999` gives 1000000, above 999999. -/
theorem typecast_timestamp_usec_rounds :
    typecast_timestamp ⟨utc, fun _ => utc⟩ "2012-06-15 14:30:00.1234567".toList none =
      .time 1339770600 123457 ∧
    decimalValue ("1234567".toList.take 6) = 123456 ∧
    typecast_timestamp ⟨utc, fun _ => utc⟩ "2012-06-15 14:30:00.9999999".toList none =
      .time 1339770600 1000000 := by
  decide

/-- C8 amended: when the matched prefix `pre` is followed by `.` and a run of
`n <= 6` decimal digits `ds`, the microseconds of the Time returned are the
value of `ds` times `10^(6-n)`, which lies in `[0, 999999]`. -/
theorem typecast_timestamp_usec (env : Env) (zone : Option (List Char))
    (pre ds rest : List Char) (hpre : 0 < pre.length)
    (hds : ∀ c ∈ ds, isdigit c = true) (hrest : isdigit (peek rest) = false)
    (hn : ds.length ≤ 6)
    (hmatch : (scan_fields (pre ++ '.' :: ds ++ rest)).2 = pre.length)
    (hday : 0 < (scan_fields (pre ++ '.' :: ds ++ rest)).1.tm_mday) :
    (∃ sec, typecast_timestamp env (pre ++ '.' :: ds ++ rest) zone =
      .time sec (decimalValue ds * 10 ^ (6 - ds.length))) ∧
    decimalValue ds * 10 ^ (6 - ds.length) ≤ 999999 := by
  have hu := scan_subsec_short pre ds rest hpre hds hrest hn
  refine ⟨?_, (subsecToUsec_short ds hds hn).2⟩
  simp only [typecast_timestamp]
  rw [if_pos (by simpa using hday), hmatch, hu]
  exact ⟨_, rfl⟩

/-- Witness for the amended C8: `.25` before a `+02:00` suffix is 250000
microseconds. -/
theorem typecast_timestamp_usec_witness :
    (∃ sec, typecast_timestamp ⟨utc, fun _ => utc⟩ "2012-06-15 14:30:00.25+02:00".toList none =
      .time sec 250000) :=
  (typecast_timestamp_usec ⟨utc, fun _ => utc⟩ none "2012-06-15 14:30:00".toList
    "25".toList "+02:00".toList (by decide) (by decide) (by decide) (by decide) (by decide)
    (by decide)).1

/-! ## Theorems : the time zone suffix -/

/-- Two digits are read in full by `%02d`, whatever follows. -/
theorem scanInt_two (a b : Char) (rest : List Char) (ha : isdigit a = true)
    (hb : isdigit b = true) :
    scanInt 2 (a :: b :: rest) = some (digitVal a * 10 + digitVal b, 2, rest) := by
  have na := isdigit_ne ha
  simp [scanInt, scanDigits, List.takeWhile_cons, List.dropWhile_cons, na.2.2.2.2.2.2,
    na.2.1, na.2.2.1, ha, hb]

/-- Four digits are read in full by `%04d`, whatever follows. -/
theorem scanInt_four (a b c d : Char) (rest : List Char) (ha : isdigit a = true)
    (hb : isdigit b = true) (hc : isdigit c = true) (hd : isdigit d = true) :
    scanInt 4 (a :: b :: c :: d :: rest) =
      some (((digitVal a * 10 + digitVal b) * 10 + digitVal c) * 10 + digitVal d, 4, rest) := by
  have na := isdigit_ne ha
  simp [scanInt, scanDigits, List.takeWhile_cons, List.dropWhile_cons, na.2.2.2.2.2.2,
    na.2.1, na.2.2.1, ha, hb, hc, hd]

/-- The prefix `YYYY-MM-DD HH:MM:SS` is matched in full, up to `%n`, whatever
follows it: the six fields are stored and `lastmatch` is 19. -/
theorem scan_fields_stamp (p : Stamp) (hp : ∀ c ∈ p.digits, isdigit c = true)
    (rest : List Char) :
    scan_fields (p.text ++ rest) =
      ({ tm_year := ((digitVal p.y1 * 10 + digitVal p.y2) * 10 + digitVal p.y3) * 10 +
           digitVal p.y4,
         tm_mon := digitVal p.o1 * 10 + digitVal p.o2,
         tm_mday := digitVal p.d1 * 10 + digitVal p.d2,
         tm_hour := digitVal p.h1 * 10 + digitVal p.h2,
         tm_min := digitVal p.i1 * 10 + digitVal p.i2,
         tm_sec := digitVal p.e1 * 10 + digitVal p.e2,
         tm_isdst := 0 }, 19) := by
  have hd : ∀ c ∈ p.digits, isdigit c = true ∧ (c != NUL) = true := fun c hc =>
    ⟨hp c hc, by simpa using (isdigit_ne (hp c hc)).1⟩
  simp only [Stamp.digits, List.mem_cons, List.mem_singleton, forall_eq_or_imp, forall_eq,
    List.not_mem_nil, false_implies, implies_true, and_true] at hd
  obtain ⟨⟨a1, n1⟩, ⟨a2, n2⟩, ⟨a3, n3⟩, ⟨a4, n4⟩, ⟨a5, n5⟩, ⟨a6, n6⟩, ⟨a7, n7⟩, ⟨a8, n8⟩,
    ⟨a9, n9⟩, ⟨a10, n10⟩, ⟨a11, n11⟩, ⟨a12, n12⟩, ⟨a13, n13⟩, ⟨a14, n14⟩⟩ := hd
  have hc : cstring (p.text ++ rest) = p.text ++ cstring rest := by
    unfold cstring
    apply List.takeWhile_append_of_pos
    intro c hc
    simp only [Stamp.text, List.mem_cons, List.mem_singleton, List.not_mem_nil, or_false] at hc
    rcases hc with h | h | h | h | h | h | h | h | h | h | h | h | h | h | h | h | h | h | h <;>
      subst h <;> first | assumption | decide
  simp only [scan_fields, sscanf, hc]
  have s9 : isspace p.h1 = false := (isdigit_ne a9).2.2.2.2.2.2
  have sp : isspace ' ' = true := by decide
  simp [Stamp.text, timestampFormat, sscanfRun, scanInt_four _ _ _ _ _ a1 a2 a3 a4,
    scanInt_two _ _ _ a5 a6, scanInt_two _ _ _ a7 a8, scanInt_two _ _ _ a9 a10,
    scanInt_two _ _ _ a11 a12, scanInt_two _ _ _ a13 a14, intItem, List.dropWhile_cons,
    List.takeWhile_cons, s9, sp]

/-- After the prefix, with or without a fraction, the fraction scan leaves
`lastmatch` at a position from which only unread fraction digits separate it
from the sign; the microseconds and the position do not depend on what follows
the sign. -/
theorem scan_subsec_stamp (p : Stamp) (frac : List Char) (s : Char)
    (hs : s = '+' ∨ s = '-')
    (hfrac : frac = [] ∨ ∃ fs, frac = '.' :: fs ∧ ∀ c ∈ fs, isdigit c = true) :
    ∃ (usec pos : Nat) (gap : List Char), 0 < pos ∧ (∀ c ∈ gap, isdigit c = true) ∧
      ∀ sp, scan_subsec (p.text ++ frac ++ s :: sp) 19 = (usec, (pos : Int)) ∧
        pos < (p.text ++ frac ++ s :: sp).length ∧
        (p.text ++ frac ++ s :: sp).drop pos = gap ++ s :: sp := by
  have hlen : p.text.length = 19 := rfl
  have hsd : isdigit s = false := by rcases hs with rfl | rfl <;> decide
  have hsdot : s ≠ '.' := by rcases hs with rfl | rfl <;> decide
  rcases hfrac with rfl | ⟨fs, rfl, hfs⟩
  · refine ⟨0, 19, [], by norm_num, by simp, fun sp => ⟨?_, ?_, ?_⟩⟩
    · have hb : byteAt (p.text ++ [] ++ s :: sp) 19 = s := by
        simp [byteAt, Stamp.text]
      have : ¬ ((19 : Int) > 0 ∧ (19 : Int) < ((p.text ++ [] ++ s :: sp).length : Nat) ∧
          byteAt (p.text ++ [] ++ s :: sp) (19 : Int).toNat = '.') := by
        intro h
        have h3 := h.2.2
        rw [show (19 : Int).toNat = 19 from rfl, hb] at h3
        exact hsdot h3
      simp only [scan_subsec, if_neg this]
      rfl
    · simp [hlen]
    · simp [Stamp.text]
  · have hdig : ∀ sp, subsecDigits (p.text ++ '.' :: fs ++ s :: sp) 20 = fs.take 31 := by
      intro sp
      have e : p.text ++ '.' :: fs ++ s :: sp = (p.text ++ ['.']) ++ (fs ++ s :: sp) := by simp
      have hl : 20 = (p.text ++ ['.']).length := rfl
      have htw : (fs ++ s :: sp).takeWhile isdigit = fs := by
        rw [List.takeWhile_append_of_pos hfs]
        simp [List.takeWhile_cons, hsd]
      unfold subsecDigits
      rw [e, hl, List.drop_left, htw]
    refine ⟨subsecToUsec (fs.take 31), 20 + (fs.take 31).length, fs.drop 31, by omega,
      fun c hc => hfs c (List.mem_of_mem_drop hc), fun sp => ⟨?_, ?_, ?_⟩⟩
    · have hb : byteAt (p.text ++ '.' :: fs ++ s :: sp) 19 = '.' := by
        simp [byteAt, Stamp.text]
      have hcond : ((19 : Int) > 0 ∧
          (19 : Int) < ((p.text ++ '.' :: fs ++ s :: sp).length : Nat) ∧
          byteAt (p.text ++ '.' :: fs ++ s :: sp) (19 : Int).toNat = '.') := by
        refine ⟨by norm_num, ?_, hb⟩
        simp only [List.length_append, List.length_cons, hlen]
        omega
      simp only [scan_subsec, if_pos hcond]
      rw [show (19 : Int).toNat + 1 = 20 from rfl, hdig sp]
      simp only [Prod.mk.injEq, true_and]
      push_cast
      ring
    · simp only [List.length_append, List.length_cons, hlen, List.length_take]
      omega
    · have e : p.text ++ '.' :: fs ++ s :: sp = (p.text ++ ['.']) ++ (fs ++ s :: sp) := by simp
      have hl : 20 + (fs.take 31).length = (p.text ++ ['.']).length + (fs.take 31).length := rfl
      rw [e, hl, List.drop_append, List.drop_append_of_le_length (by simp)]
      congr 1
      rw [List.length_take]
      by_cases h31 : 31 ≤ fs.length
      · rw [Nat.min_eq_left h31]
      · have h1 : fs.length ≤ 31 := by omega
        rw [Nat.min_eq_right h1, List.drop_of_length_le h1, List.drop_of_length_le (Nat.le_refl _)]

/-- The suffix scan only looks at the text from `lastmatch` on, and unread
fraction digits before the sign are passed over. -/
theorem scan_tz_at (data : List Char) (pos : Nat) (gap : List Char) (s : Char)
    (sp : List Char) (hpos : 0 < pos) (hlt : pos < data.length)
    (hdrop : data.drop pos = gap ++ s :: sp) (hgap : ∀ c ∈ gap, isdigit c = true)
    (hs : s = '+' ∨ s = '-') :
    scan_tz data (pos : Int) = scan_tz ('.' :: s :: sp) 1 := by
  have hstop : (s != NUL && s != '+' && s != '-') = false := by
    rcases hs with rfl | rfl <;> decide
  have hA : ∀ g : List Char, (∀ c ∈ g, isdigit c = true) →
      (g ++ s :: sp).dropWhile (fun c => c != NUL && c != '+' && c != '-') = s :: sp := by
    intro g hg
    induction g with
    | nil => simp [List.dropWhile_cons, hstop]
    | cons c g ih =>
      have hc := isdigit_ne (hg c (List.mem_cons_self _ _))
      have hgo : (c != NUL && c != '+' && c != '-') = true := by
        simp [hc.1, hc.2.1, hc.2.2.1]
      rw [List.cons_append, List.dropWhile_cons, if_pos hgo]
      exact ih (fun x hx => hg x (List.mem_cons_of_mem _ hx))
  have hB : (s :: sp).dropWhile (fun c => c != NUL && c != '+' && c != '-') = s :: sp := by
    simp [List.dropWhile_cons, hstop]
  have hc1 : ((pos : Int) > 0 ∧ (pos : Int) < (data.length : Nat)) := by
    constructor <;> omega
  have hc2 : ((1 : Int) > 0 ∧ (1 : Int) < (('.' :: s :: sp).length : Nat)) := by
    simp only [List.length_cons]
    constructor <;> omega
  simp only [scan_tz]
  rw [if_pos hc1, if_pos hc2]
  simp only [Int.toNat_ofNat, hdrop, hA gap hgap, show (1 : Int).toNat = 1 from rfl,
    List.drop_succ_cons, List.drop_zero, hB]

/-- The hour and minute read from the suffix spellings `sHH:MM`, `sHH MM`,
`sHHMM`, and from a sign followed by one or two hour digits only. -/
theorem scan_tz_spelled (s h1 h2 m1 m2 sep : Char) (hs : s = '+' ∨ s = '-')
    (hh1 : isdigit h1 = true) (hh2 : isdigit h2 = true) (hm1 : isdigit m1 = true)
    (hm2 : isdigit m2 = true) (hsep : sep = ':' ∨ sep = ' ') :
    scan_tz ('.' :: s :: [h1, h2, sep, m1, m2]) 1 =
      (s, digitVal h1 * 10 + digitVal h2, digitVal m1 * 10 + digitVal m2) ∧
    scan_tz ('.' :: s :: [h1, h2, m1, m2]) 1 =
      (s, digitVal h1 * 10 + digitVal h2, digitVal m1 * 10 + digitVal m2) ∧
    scan_tz ('.' :: s :: [h1]) 1 = (s, digitVal h1, 0) ∧
    scan_tz ('.' :: s :: [h1, h2]) 1 = (s, digitVal h1 * 10 + digitVal h2, 0) := by
  have hstop : (s != NUL && s != '+' && s != '-') = false := by
    rcases hs with rfl | rfl <;> decide
  have hsepd : isdigit sep = false := by rcases hsep with rfl | rfl <;> decide
  have hsepn : (sep != NUL) = true := by rcases hsep with rfl | rfl <;> decide
  have hnul : isdigit NUL = false := by decide
  refine ⟨?_, ?_, ?_, ?_⟩ <;>
    simp [scan_tz, peek, List.dropWhile_cons, hstop, hh1, hh2, hm1, hm2, hsepd, hsepn, hnul]

/-- The sign times the magnitude: `fixed_offset` for `+` and for `-`. -/
theorem fixed_offset_sign (s : Char) (hs : s = '+' ∨ s = '-') (hour minute : Int) :
    fixed_offset s hour minute = (if s = '+' then 1 else -1) * (hour * 3600 + minute * 60) := by
  rcases hs with rfl | rfl
  · simp [fixed_offset]
  · have : ¬ ('-' = '+') := by decide
    simp only [fixed_offset, this, if_false]
    ring

/-- A stamp with a positive day, an optional fraction and a sign-led suffix:
the suffix scan reads the suffix as if it stood alone, and the Time returned is
one instant fixed by the stamp (`epoch + adjust`) minus the offset read from
the suffix, with microseconds fixed by the fraction. -/
theorem typecast_timestamp_stamp (env : Env) (zone : Option (List Char)) (p : Stamp)
    (frac : List Char) (s : Char) (hp : ∀ c ∈ p.digits, isdigit c = true)
    (hfrac : frac = [] ∨ ∃ fs, frac = '.' :: fs ∧ ∀ c ∈ fs, isdigit c = true)
    (hs : s = '+' ∨ s = '-') :
    ∃ (base : Int) (usec : Nat), ∀ sp,
      scan_tz (p.text ++ frac ++ s :: sp)
        (scan_subsec (p.text ++ frac ++ s :: sp) (scan_fields (p.text ++ frac ++ s :: sp)).2).2 =
        scan_tz ('.' :: s :: sp) 1 ∧
      (0 < digitVal p.d1 * 10 + digitVal p.d2 → ∀ hour minute,
        scan_tz ('.' :: s :: sp) 1 = (s, hour, minute) →
        typecast_timestamp env (p.text ++ frac ++ s :: sp) zone =
          .time (base - fixed_offset s hour minute) usec) := by
  obtain ⟨usec, pos, gap, hpos, hgap, hsub⟩ := scan_subsec_stamp p frac s hs hfrac
  have hsn : s ≠ NUL := by rcases hs with rfl | rfl <;> decide
  have hf : ∀ sp, scan_fields (p.text ++ frac ++ s :: sp) =
      ((scan_fields (p.text ++ [])).1, 19) := fun sp => by
    rw [List.append_assoc, scan_fields_stamp p hp, scan_fields_stamp p hp]
  have hd : (scan_fields (p.text ++ [])).1.tm_mday = digitVal p.d1 * 10 + digitVal p.d2 := by
    rw [scan_fields_stamp p hp]
  generalize (scan_fields (p.text ++ [])).1 = tm at hf hd
  refine ⟨(env.client.mktime (Tm.mk tm.tm_sec tm.tm_min tm.tm_hour tm.tm_mday (tm.tm_mon - 1)
      (tm.tm_year - 1900) (-1))).1 + client_tzoffset env.client
        (env.client.mktime (Tm.mk tm.tm_sec tm.tm_min tm.tm_hour tm.tm_mday (tm.tm_mon - 1)
          (tm.tm_year - 1900) (-1))).1
        (env.client.mktime (Tm.mk tm.tm_sec tm.tm_min tm.tm_hour tm.tm_mday (tm.tm_mon - 1)
          (tm.tm_year - 1900) (-1))).2.tm_isdst, usec, fun sp => ?_⟩
  obtain ⟨h1, h2, h3⟩ := hsub sp
  have hz := scan_tz_at _ pos gap s sp hpos h2 h3 hgap hs
  refine ⟨?_, ?_⟩
  · rw [hf sp]
    simp only [h1]
    exact hz
  · intro hday hour minute hsp
    have hday2 : 0 < tm.tm_mday := by rw [hd]; exact hday
    simp only [typecast_timestamp, hf sp, h1, hz, hsp]
    rw [if_pos (by simpa using hday2), if_pos hsn]

/-- C11: after one timestamp prefix `YYYY-MM-DD HH:MM:SS`, with or without a
fraction, the suffix scan reads sign `s`, hour `HH` and minute `MM` from each
of the spellings `sHH:MM`, `sHH MM` and `sHHMM`, and hour `H` with minute 0
from a sign followed by hour digits only; the offset is `s*(HH*3600 + MM*60)`,
respectively `s*(H*3600)`, and for a positive day every spelling decodes to the
same instant minus that offset, with the same microseconds. -/
theorem typecast_timestamp_suffix_spellings (env : Env) (zone : Option (List Char))
    (p : Stamp) (frac : List Char) (s h1 h2 m1 m2 : Char)
    (hp : ∀ c ∈ p.digits, isdigit c = true)
    (hfrac : frac = [] ∨ ∃ fs, frac = '.' :: fs ∧ ∀ c ∈ fs, isdigit c = true)
    (hs : s = '+' ∨ s = '-')
    (hh : ∀ c ∈ [h1, h2, m1, m2], isdigit c = true) :
    (∀ sp ∈ [[h1, h2, ':', m1, m2], [h1, h2, ' ', m1, m2], [h1, h2, m1, m2]],
      scan_tz (p.text ++ frac ++ s :: sp)
        (scan_subsec (p.text ++ frac ++ s :: sp) (scan_fields (p.text ++ frac ++ s :: sp)).2).2 =
        (s, digitVal h1 * 10 + digitVal h2, digitVal m1 * 10 + digitVal m2)) ∧
    scan_tz (p.text ++ frac ++ s :: [h1])
        (scan_subsec (p.text ++ frac ++ s :: [h1]) (scan_fields (p.text ++ frac ++ s :: [h1])).2).2 =
        (s, digitVal h1, 0) ∧
    scan_tz (p.text ++ frac ++ s :: [h1, h2])
        (scan_subsec (p.text ++ frac ++ s :: [h1, h2])
          (scan_fields (p.text ++ frac ++ s :: [h1, h2])).2).2 =
        (s, digitVal h1 * 10 + digitVal h2, 0) ∧
    fixed_offset s (digitVal h1 * 10 + digitVal h2) (digitVal m1 * 10 + digitVal m2) =
      (if s = '+' then 1 else -1) *
        ((digitVal h1 * 10 + digitVal h2) * 3600 + (digitVal m1 * 10 + digitVal m2) * 60) ∧
    fixed_offset s (digitVal h1) 0 = (if s = '+' then 1 else -1) * (digitVal h1 * 3600) ∧
    fixed_offset s (digitVal h1 * 10 + digitVal h2) 0 =
      (if s = '+' then 1 else -1) * ((digitVal h1 * 10 + digitVal h2) * 3600) ∧
    (0 < digitVal p.d1 * 10 + digitVal p.d2 → ∃ (base : Int) (usec : Nat),
      (∀ sp ∈ [[h1, h2, ':', m1, m2], [h1, h2, ' ', m1, m2], [h1, h2, m1, m2]],
        typecast_timestamp env (p.text ++ frac ++ s :: sp) zone =
          .time (base - (if s = '+' then 1 else -1) *
            ((digitVal h1 * 10 + digitVal h2) * 3600 + (digitVal m1 * 10 + digitVal m2) * 60))
            usec) ∧
      typecast_timestamp env (p.text ++ frac ++ s :: [h1]) zone =
        .time (base - (if s = '+' then 1 else -1) * (digitVal h1 * 3600)) usec ∧
      typecast_timestamp env (p.text ++ frac ++ s :: [h1, h2]) zone =
        .time (base - (if s = '+' then 1 else -1) * ((digitVal h1 * 10 + digitVal h2) * 3600))
          usec) := by
  have hh1 : isdigit h1 = true := hh h1 (by simp)
  have hh2 : isdigit h2 = true := hh h2 (by simp)
  have hm1 : isdigit m1 = true := hh m1 (by simp)
  have hm2 : isdigit m2 = true := hh m2 (by simp)
  have hcolon := scan_tz_spelled s h1 h2 m1 m2 ':' hs hh1 hh2 hm1 hm2 (Or.inl rfl)
  have hblank := scan_tz_spelled s h1 h2 m1 m2 ' ' hs hh1 hh2 hm1 hm2 (Or.inr rfl)
  have hthree : ∀ sp ∈ [[h1, h2, ':', m1, m2], [h1, h2, ' ', m1, m2], [h1, h2, m1, m2]],
      scan_tz ('.' :: s :: sp) 1 =
        (s, digitVal h1 * 10 + digitVal h2, digitVal m1 * 10 + digitVal m2) := by
    intro sp hsp
    simp only [List.mem_cons, List.mem_singleton, List.not_mem_nil, or_false] at hsp
    rcases hsp with rfl | rfl | rfl
    · exact hcolon.1
    · exact hblank.1
    · exact hcolon.2.1
  obtain ⟨base, usec, hall⟩ := typecast_timestamp_stamp env zone p frac s hp hfrac hs
  have e0 : fixed_offset s (digitVal h1) 0 = (if s = '+' then 1 else -1) * (digitVal h1 * 3600) := by
    rw [fixed_offset_sign s hs]
    ring_nf
  have e1 : fixed_offset s (digitVal h1 * 10 + digitVal h2) 0 =
      (if s = '+' then 1 else -1) * ((digitVal h1 * 10 + digitVal h2) * 3600) := by
    rw [fixed_offset_sign s hs]
    ring_nf
  refine ⟨fun sp hsp => ?_, ?_, ?_, fixed_offset_sign s hs _ _, e0, e1, fun hday => ?_⟩
  · rw [(hall sp).1, hthree sp hsp]
  · rw [(hall _).1, hcolon.2.2.1]
  · rw [(hall _).1, hcolon.2.2.2]
  · refine ⟨base, usec, fun sp hsp => ?_, ?_, ?_⟩
    · rw [(hall sp).2 hday _ _ (hthree sp hsp), fixed_offset_sign s hs]
    · rw [(hall _).2 hday _ _ hcolon.2.2.1, e0]
    · rw [(hall _).2 hday _ _ hcolon.2.2.2, e1]

/-- Witness for C11: after `2012-06-15 14:30:00.25` the suffix `-02 30` is read
as sign `-`, hour 2 and minute 30, and the texts ending in `-02:30`, `-02 30`
and `-0230` decode to one and the same Time, 9000 seconds after the instant of
the stamp. -/
theorem typecast_timestamp_suffix_spellings_witness :
    scan_tz "2012-06-15 14:30:00.25-02 30".toList
      (scan_subsec "2012-06-15 14:30:00.25-02 30".toList
        (scan_fields "2012-06-15 14:30:00.25-02 30".toList).2).2 = ('-', 2, 30) ∧
    ∃ (base : Int) (usec : Nat),
      typecast_timestamp ⟨utc, fun _ => utc⟩ "2012-06-15 14:30:00.25-02:30".toList none =
        .time (base - (-9000)) usec ∧
      typecast_timestamp ⟨utc, fun _ => utc⟩ "2012-06-15 14:30:00.25-02 30".toList none =
        .time (base - (-9000)) usec ∧
      typecast_timestamp ⟨utc, fun _ => utc⟩ "2012-06-15 14:30:00.25-0230".toList none =
        .time (base - (-9000)) usec := by
  have t := typecast_timestamp_suffix_spellings ⟨utc, fun _ => utc⟩ none stamp2012
    ".25".toList '-' '0' '2' '3' '0' (by decide) (Or.inr ⟨"25".toList, rfl, by decide⟩)
    (Or.inr rfl) (by decide)
  obtain ⟨base, usec, h3, -, -⟩ := t.2.2.2.2.2.2 (by decide)
  exact ⟨t.1 ['0', '2', ' ', '3', '0'] (by decide), base, usec,
    h3 ['0', '2', ':', '3', '0'] (by decide), h3 ['0', '2', ' ', '3', '0'] (by decide),
    h3 ['0', '2', '3', '0'] (by decide)⟩

end Swift
